
import Mathlib

/-!
Verification of the TBM transit search engine (`src/lambda/api.py`).

The Python source is shallowly embedded: strings are lists of characters
(`Str`), Python floats used for fuzzy scores are modelled as rationals,
the `requests`-level transport is modelled as a `DataSource` record of
`Except`-valued responses (a `DataSourceError` is the `Except.error`
case), and the mutable per-instance caches of `TBMClient` are threaded
explicitly as a `ClientState` value.

Character-level notes on the embedding of `normalize_text`:
* `unicodedata.normalize("NFKD", ·)` followed by removal of combining
  marks is embedded as `foldChar`, covering the French accented
  repertoire (the letters with grave, acute, circumflex, diaeresis and
  cedilla in both cases) plus the combining-mark block U+0300–U+036F;
  other code points are left unchanged.
* `str.lower` is embedded on the ASCII range (the accented letters are
  already folded away by `foldChar` before `lower` runs in the source).
* `str.strip` strips the ASCII whitespace characters.
* `re.sub(rf'\b{word}\b', digit, ·)` is embedded by `subWord`: a
  left-to-right, non-overlapping scan replacing each word-boundary
  bounded occurrence, where the boundary test matches the regex `\b`
  semantics for patterns that begin and end with word characters (all
  entries of `FRENCH_NUMBERS` do), with `\w` taken as `[A-Za-z0-9_]`.
-/

set_option maxHeartbeats 1000000

/-- Strings of the Python source, as lists of characters. -/
abbrev Str := List Char

/-- Shorthand to write a `Str` from a Lean string literal. -/
def cs (s : String) : Str := s.data

/-- ASCII digit, by code point. -/
def isDigitC (c : Char) : Bool := 48 ≤ c.toNat && c.toNat ≤ 57

/-- ASCII letter, by code point. -/
def isLetterC (c : Char) : Bool :=
  (65 ≤ c.toNat && c.toNat ≤ 90) || (97 ≤ c.toNat && c.toNat ≤ 122)

/-- Regex `\w` word character: `[A-Za-z0-9_]`. -/
def isWordChar (c : Char) : Bool := isLetterC c || isDigitC c || c == '_'

/-- The whitespace characters stripped by `str.strip`. -/
def isSpaceC (c : Char) : Bool :=
  c.toNat == 32 || c.toNat == 9 || c.toNat == 10 || c.toNat == 13 ||
  c.toNat == 11 || c.toNat == 12

/-- The accented-letter table of the NFKD embedding: each French
accented letter paired with its base letter (both cases). -/
def accentPairs : List (Char × Char) :=
  [('à','a'), ('â','a'), ('ä','a'), ('è','e'), ('é','e'), ('ê','e'), ('ë','e'),
   ('î','i'), ('ï','i'), ('ô','o'), ('ö','o'), ('ù','u'), ('û','u'), ('ü','u'),
   ('ç','c'), ('ÿ','y'),
   ('À','A'), ('Â','A'), ('Ä','A'), ('È','E'), ('É','E'), ('Ê','E'), ('Ë','E'),
   ('Î','I'), ('Ï','I'), ('Ô','O'), ('Ö','O'), ('Ù','U'), ('Û','U'), ('Ü','U'),
   ('Ç','C'), ('Ÿ','Y')]

/-- NFKD decomposition followed by removal of combining marks, per
character: accented French letters collapse to their base letter,
combining marks (U+0300–U+036F) are removed, everything else is kept. -/
def foldChar (c : Char) : List Char :=
  if c.toNat < 128 then [c]
  else if 768 ≤ c.toNat ∧ c.toNat ≤ 879 then []
  else
    match accentPairs.lookup c with
    | some b => [b]
    | none => [c]

/-- Accent folding on a whole string. -/
def foldStr : Str → Str
  | [] => []
  | c :: r => foldChar c ++ foldStr r

/-- `str.lower` on the ASCII range. -/
def lowerChar (c : Char) : Char :=
  if 65 ≤ c.toNat ∧ c.toNat ≤ 90 then Char.ofNat (c.toNat + 32) else c

def lowerStr (s : Str) : Str := s.map lowerChar

/-- `str.strip`. -/
def trimStr (s : Str) : Str :=
  ((s.dropWhile isSpaceC).reverse.dropWhile isSpaceC).reverse

/-- `FRENCH_NUMBERS`, in the source's (insertion) order. -/
def FRENCH_NUMBERS : List (Str × Str) :=
  [(cs "zero", cs "0"), (cs "un", cs "1"), (cs "une", cs "1"),
   (cs "deux", cs "2"), (cs "trois", cs "3"), (cs "quatre", cs "4"),
   (cs "cinq", cs "5"), (cs "six", cs "6"), (cs "sept", cs "7"),
   (cs "huit", cs "8"), (cs "neuf", cs "9"), (cs "dix", cs "10"),
   (cs "onze", cs "11"), (cs "douze", cs "12"), (cs "treize", cs "13"),
   (cs "quatorze", cs "14"), (cs "quinze", cs "15"), (cs "seize", cs "16"),
   (cs "dix-sept", cs "17"), (cs "dix-huit", cs "18"), (cs "dix-neuf", cs "19"),
   (cs "vingt", cs "20"), (cs "trente", cs "30"), (cs "quarante", cs "40"),
   (cs "cinquante", cs "50"), (cs "soixante", cs "60")]

/-- Boolean test that `w` is a (contiguous, initial) left factor of `s`. -/
def pfx : Str → Str → Bool
  | [], _ => true
  | _ :: _, [] => false
  | a :: x, b :: y => a == b && pfx x y

/-- The regex `\b` test on the left of a match, given the previous
character (`none` at the start of the string), for a pattern starting
with a word character. -/
def prevOk (prev : Option Char) : Bool :=
  match prev with
  | none => true
  | some c => !isWordChar c

/-- The regex `\b` test on the right of a match, given the remainder of
the string, for a pattern ending with a word character. -/
def nextOk (rest : Str) : Bool :=
  match rest with
  | [] => true
  | c :: _ => !isWordChar c

/-- Whole-word match of `w` at the current position of `s`, with `prev`
the character just before that position. -/
def matchAt (w : Str) (prev : Option Char) (s : Str) : Bool :=
  prevOk prev && pfx w s && nextOk (s.drop w.length)

/-- The scan of `re.sub(rf'\b{word}\b', digit, ·)` for `word = h :: t`:
left to right, non-overlapping; after a match the scan resumes past the
matched original characters (so the next `\b` test sees the last
character of the matched word). The first argument is fuel, always
called with at least the length of the string (each step consumes at
least one character). -/
def subWordAux (h : Char) (t d : Str) : Nat → Option Char → Str → Str
  | _, _, [] => []
  | 0, _, s => s
  | n + 1, prev, c :: rest =>
    if matchAt (h :: t) prev (c :: rest) then
      d ++ subWordAux h t d n (some ((h :: t).getLast (by simp))) (rest.drop t.length)
    else
      c :: subWordAux h t d n (some c) rest

/-- `re.sub(rf'\b{w}\b', d, s)`. -/
def subWord (w d s : Str) : Str :=
  match w with
  | [] => s
  | h :: t => subWordAux h t d s.length none s

/-- Whether `w` has a whole-word occurrence in the string, scanning
with the character preceding the current position. -/
def hasOccAux (w : Str) : Option Char → Str → Bool
  | _, [] => false
  | prev, c :: rest => matchAt w prev (c :: rest) || hasOccAux w (some c) rest

/-- The `\b` context after scanning past `d` (its last character, or
the incoming context when `d` is empty). -/
def prevAfter (d : Str) (prev : Option Char) : Option Char :=
  match d.getLast? with
  | some c => some c
  | none => prev

/-- The `for word, digit in FRENCH_NUMBERS.items()` substitution loop. -/
def applyTable (table : List (Str × Str)) (s : Str) : Str :=
  table.foldl (fun acc p => subWord p.1 p.2 acc) s

/-- `normalize_text`: accent folding, lowercasing, strip, then the
number-word substitutions. -/
def normalize_text (s : Str) : Str :=
  if s = [] then []
  else applyTable FRENCH_NUMBERS (trimStr (lowerStr (foldStr s)))

/-- The separator class `[\s\-\_\,\.]` of `extract_keywords`. -/
def isSepC (c : Char) : Bool :=
  isSpaceC c || c == '-' || c == '_' || c == ',' || c == '.'

/-- `re.split(r'[\s\-\_\,\.]+', ·)`: split at each maximal run of
separators (empty tokens arise at the ends, as in Python). Fuel-indexed,
always called with at least the length of the string. -/
def splitRunsAux : Nat → Str → List Str
  | 0, s => [s]
  | n + 1, s =>
    let tok := s.takeWhile (fun c => !isSepC c)
    let rest := s.dropWhile (fun c => !isSepC c)
    match rest with
    | [] => [tok]
    | _ :: r => tok :: splitRunsAux n (r.dropWhile isSepC)

def split_tokens (s : Str) : List Str := splitRunsAux s.length s

/-- The stopword set of `extract_keywords`. -/
def STOPWORDS : List Str :=
  [cs "le", cs "la", cs "les", cs "de", cs "du", cs "des", cs "a",
   cs "au", cs "aux", cs "et", cs "en"]

/-- `extract_keywords`: normalize, split, keep tokens of length ≥ 2 that
are not stopwords. -/
def extract_keywords (s : Str) : List Str :=
  if s = [] then []
  else
    (split_tokens (normalize_text s)).filter
      (fun w => 2 ≤ w.length && !(STOPWORDS.contains w))

/-- Python's `in` on strings: contiguous-substring test (the empty
string is a substring of everything). -/
def isSubstr (a : Str) : Str → Bool
  | [] => pfx a []
  | b :: r => pfx a (b :: r) || isSubstr a r

/-- `fuzzy_match`: tiered similarity score, as a rational. -/
def fuzzy_match (query target : Str) : ℚ :=
  let query_norm := normalize_text query
  let target_norm := normalize_text target
  if query_norm = target_norm then 1
  else if isSubstr query_norm target_norm then 9/10
  else if isSubstr target_norm query_norm then 8/10
  else
    let query_words := extract_keywords query
    let target_words := extract_keywords target
    if query_words = [] ∨ target_words = [] then 0
    else
      let matchCount := query_words.countP
        (fun qw => target_words.any (fun tw => isSubstr qw tw || isSubstr tw qw))
      (matchCount : ℚ) / query_words.length * (7/10)

/-! ## Facts about `trimStr` -/

/-- Head character is not whitespace (or the string is empty). -/
def headOkB : Str → Bool
  | [] => true
  | c :: _ => !isSpaceC c

/-- Last character is not whitespace (or the string is empty). -/
def lastOkB (s : Str) : Bool :=
  match s.getLast? with
  | none => true
  | some c => !isSpaceC c

/-! ## The substitution table discipline and idempotence -/

/-- A table entry whose word is all letters and whose replacement is a
non-empty digit string. -/
def simpleEntry (w d : Str) : Bool :=
  !w.isEmpty && w.all isLetterC && !d.isEmpty && d.all isDigitC

/-- A compound entry: some already-processed word is a left factor of
`w` followed by a non-word character. -/
def compoundEntry (dead : List Str) (w : Str) : Bool :=
  dead.any (fun b => pfx b w &&
    (match w.drop b.length with
     | c :: _ => !isWordChar c
     | [] => false))

/-- The discipline `FRENCH_NUMBERS` follows: every entry is simple, or
compound over an earlier simple word. -/
def goodTable : List Str → List (Str × Str) → Bool
  | _, [] => true
  | dead, (w, d) :: rest =>
    (simpleEntry w d && goodTable (w :: dead) rest) ||
    (compoundEntry dead w && goodTable dead rest)

/-! ## The SIRI value boundary and the `TBMClient` model -/

/-- A SIRI field value as consumed by `get_value`: a string, a list, a
small record with `value`/`Value` keys, or anything else (including a
missing field, i.e. Python `None`). -/
inductive SField where
  | str : Str → SField
  | vlist : List SField → SField
  | vdict : Option Str → Option Str → SField
  | null : SField

/-- Python `x or y` on strings: keep the left operand when non-empty. -/
def pyOr (a b : Str) : Str := if a = [] then b else a

/-- `get_value`: extract a text value from a SIRI field that may be a
scalar, a one-element sequence, or a record with a `value`/`Value` key. -/
def get_value : SField → Str
  | .vlist [] => []
  | .vlist (x :: _) =>
    match x with
    | .vdict v V => pyOr (v.getD []) (V.getD [])
    | .str s => s
    | _ => []
  | .vdict v V => pyOr (v.getD []) (V.getD [])
  | .str s => s
  | .null => []

/-- Accumulator for an all-digit run, most significant first. -/
def digitsValAux : Nat → Str → Option Nat
  | acc, [] => some acc
  | acc, c :: r =>
    if isDigitC c then digitsValAux (acc * 10 + (c.toNat - 48)) r else none

/-- `to_int`: Python `int(str(value).strip())` for string input — an
optional sign followed by one or more ASCII digits — with a fallback
default on failure. -/
def to_int (s : Str) (default : Int := -1) : Int :=
  match trimStr s with
  | [] => default
  | '-' :: rest =>
    (match rest, digitsValAux 0 rest with
     | _ :: _, some n => -(n : Int)
     | _, _ => default)
  | '+' :: rest =>
    (match rest, digitsValAux 0 rest with
     | _ :: _, some n => (n : Int)
     | _, _ => default)
  | t =>
    (match digitsValAux 0 t with
     | some n => (n : Int)
     | none => default)

/-- `str(i)` for an integer, as a character list. -/
def intStr (i : Int) : Str := (toString i).data

/-- One entry of the line catalog built by `get_lines`. -/
structure LineEntry where
  line_ref : Str
  line_name : Str
  line_code : Str
  dest_name : Str
  direction_ref : Int
deriving DecidableEq

/-- A destination record inside a line-announcement item. -/
structure DestItem where
  DirectionRef : SField
  PlaceName : SField

/-- An `AnnotatedLineRef` item of the lines-discovery response (the
`or []` on a missing `Destinations` is folded into the list). -/
structure LineItem where
  LineRef : SField
  LineName : SField
  LineCode : SField
  Destinations : List DestItem

/-- An `AnnotatedStopPointRef` item of the stoppoints-discovery response. -/
structure StopItem where
  StopName : SField
  StopPointRef : SField
  Lines : List SField

/-- A `MonitoredStopVisit` record (fields read by `get_departures`). -/
structure VisitRaw where
  LineRef : SField
  DirectionRef : SField
  DestinationName : SField
  DirectionName : SField
  AimedDepartureTime : Option Str
  AimedArrivalTime : Option Str
  ExpectedDepartureTime : Option Str
  ExpectedArrivalTime : Option Str

/-- One parsed departure, as returned by `get_departures`. -/
structure Visit where
  line_ref : Str
  direction_ref : Int
  destination : Str
  aimed : Option Str
  expected : Option Str
  realtime : Bool
deriving DecidableEq

/-- One stop confirmed for a line+direction (`get_stops_for_line`). -/
structure StopRec where
  stop_name : Str
  stop_point_ref : Str
  direction_ref : Int
deriving DecidableEq

/-- One search result of `search_stop` (stop fields are `none` for the
line-only results returned when there is no stop query). -/
structure SearchResult where
  line_ref : Str
  line_name : Str
  line_code : Str
  direction_ref : Int
  dest_name : Str
  stop_point_ref : Option Str
  stop_name : Option Str
deriving DecidableEq

/-- The transport boundary of `TBMClient._get`: one field per endpoint,
each an already-deserialized `Except`-valued response; `Except.error`
is a `DataSourceError` (transport failure / non-success status /
unparsable body). `stopMonitoring` receives the `MonitoringRef`, the
optional `LineRef` and `DirectionRef` exactly as `get_departures` decides
to include them, the preview interval and `MaximumStopVisits`. -/
structure DataSource where
  linesDiscovery : Except Str (List LineItem)
  stopPointsDiscovery : (ℚ × ℚ × ℚ × ℚ) → Except Str (List StopItem)
  stopMonitoring : Str → Option Str → Option Int → Str → Nat →
    Except Str (List (List VisitRaw))

/-- The two mutable caches of a `TBMClient` instance. -/
structure ClientState where
  lines_cache : Option (List (Str × LineEntry))
  stops_cache : List (Str × List StopRec)
deriving DecidableEq

/-- The state of a freshly constructed `TBMClient`. -/
def ClientState.init : ClientState := ⟨none, []⟩

/-- `BBOX`: the fixed bounding box for the Bordeaux area (W, N, E, S). -/
def BBOX : ℚ × ℚ × ℚ × ℚ := (-81/100, 4510/100, -35/100, 4470/100)

/-- `DEFAULT_PREVIEW`. -/
def DEFAULT_PREVIEW : Str := cs "PT90M"

/-- Python truthiness of a string. -/
def truthyS (s : Str) : Bool := !s.isEmpty

/-- Python truthiness of an optional string (`None` and `""` falsy). -/
def truthyO : Option Str → Bool
  | none => false
  | some s => !s.isEmpty

/-- Python `x or y` on optional strings. -/
def pyOrO (a b : Option Str) : Option Str := if truthyO a then a else b

/-- Python string `<=` (lexicographic by code point; for the sort-key
comparisons of the source's `list.sort`/`sorted` calls). -/
def strLe : Str → Str → Bool
  | [], _ => true
  | _ :: _, [] => false
  | a :: x, b :: y =>
    if a.toNat < b.toNat then true
    else if b.toNat < a.toNat then false
    else strLe x y

/-- Ordered-dictionary insert: overwrite in place when the key exists
(keeping its original position, as a Python `dict` does), else append. -/
def dinsert {β : Type} (k : Str) (v : β) : List (Str × β) → List (Str × β)
  | [] => [(k, v)]
  | (k', v') :: rest => if k' = k then (k, v) :: rest else (k', v') :: dinsert k v rest

/-- Ordered-dictionary lookup. -/
def dlookup {β : Type} (k : Str) : List (Str × β) → Option β
  | [] => none
  | (k', v) :: rest => if k' = k then some v else dlookup k rest

/-- The sort key `x.get("expected") or x.get("aimed") or ""`. -/
def visitSortKey (v : Visit) : Str :=
  match pyOrO v.expected v.aimed with
  | some s => s
  | none => []

/-- `TBMClient.get_departures` (stateless: it touches no cache). -/
def TBMClient.get_departures (ds : DataSource) (stop_point_ref : Str)
    (line_ref : Option Str := none) (direction_ref : Int := -1)
    (preview : Str := DEFAULT_PREVIEW) (max_visits : Nat := 4) :
    Except Str (List Visit) := do
  let lr : Option Str :=
    match line_ref with
    | some l => if truthyS l then some l else none
    | none => none
  let dr : Option Int := if direction_ref ≠ -1 then some direction_ref else none
  let deliveries ← ds.stopMonitoring stop_point_ref lr dr preview max_visits
  let visits := deliveries.foldl (fun acc msvs =>
    acc ++ msvs.map (fun v =>
      let aimed := pyOrO v.AimedDepartureTime v.AimedArrivalTime
      let expected := pyOrO v.ExpectedDepartureTime v.ExpectedArrivalTime
      { line_ref := get_value v.LineRef
        direction_ref := to_int (get_value v.DirectionRef)
        destination := pyOr (get_value v.DestinationName) (get_value v.DirectionName)
        aimed := aimed
        expected := expected
        realtime := truthyO expected && truthyO aimed && expected != aimed })) []
  .ok (visits.insertionSort (fun a b => strLe (visitSortKey a) (visitSortKey b) = true))

/-- The catalog-building fetch path of `get_lines` (cache miss). -/
def fetchLines (ds : DataSource) (st : ClientState) :
    Except Str (List (Str × LineEntry) × ClientState × Nat) := do
  let items ← ds.linesDiscovery
  let found := items.foldl (fun acc it =>
    let line_ref := get_value it.LineRef
    let line_name := get_value it.LineName
    if truthyS line_ref then
      let line_code := get_value it.LineCode
      it.Destinations.foldl (fun acc d =>
        let direction_ref := to_int (get_value d.DirectionRef)
        let key := line_ref ++ cs "-" ++ intStr direction_ref
        dinsert key
          { line_ref := line_ref, line_name := line_name, line_code := line_code,
            dest_name := get_value d.PlaceName, direction_ref := direction_ref } acc) acc
    else acc) []
  let sorted := found.insertionSort (fun a b => strLe a.2.line_name b.2.line_name = true)
  .ok (sorted, { st with lines_cache := some sorted }, 1)

/-- `TBMClient.get_lines`. The final `Nat` counts the catalog fetches
this call issued (0 on a cache hit). `if self._lines_cache:` is a Python
truthiness test, so both `None` and an empty cached dict refetch. -/
def TBMClient.get_lines (ds : DataSource) (st : ClientState) :
    Except Str (List (Str × LineEntry) × ClientState × Nat) :=
  match st.lines_cache with
  | some m => if m.isEmpty then fetchLines ds st else .ok (m, st, 0)
  | none => fetchLines ds st

/-- The per-stop loop of `get_stops_for_line`: for each discovered stop
listing `line_ref`, probe live departures (at most 1 visit) and keep the
stop only when the probe returns at least one departure. The `Nat`
counts the probes issued. A probe failure propagates. -/
def probeStops (ds : DataSource) (line_ref : Str) (direction_ref : Int) :
    List StopItem → Except Str (List StopRec × Nat)
  | [] => .ok ([], 0)
  | it :: rest => do
    let stop_name := get_value it.StopName
    let stop_point_ref := get_value it.StopPointRef
    if it.Lines.any (fun l => get_value l == line_ref) then do
      let departures ← TBMClient.get_departures ds stop_point_ref (some line_ref)
        direction_ref DEFAULT_PREVIEW 1
      let (restRes, n) ← probeStops ds line_ref direction_ref rest
      .ok ((if departures.isEmpty then []
            else [{ stop_name := stop_name, stop_point_ref := stop_point_ref,
                    direction_ref := direction_ref }]) ++ restRes, n + 1)
    else
      probeStops ds line_ref direction_ref rest

/-- `TBMClient.get_stops_for_line`. The two `Nat`s count the
stop-discovery fetches (0 or 1) and the departure probes this call
issued. The sorted result is committed to the cache only on success. -/
def TBMClient.get_stops_for_line (ds : DataSource) (st : ClientState)
    (line_ref : Str) (direction_ref : Int) (bbox : ℚ × ℚ × ℚ × ℚ := BBOX) :
    Except Str (List StopRec × ClientState × Nat × Nat) :=
  let cache_key := line_ref ++ cs "-" ++ intStr direction_ref
  match dlookup cache_key st.stops_cache with
  | some cached => .ok (cached, st, 0, 0)
  | none => do
    let items ← ds.stopPointsDiscovery bbox
    let (results, probes) ← probeStops ds line_ref direction_ref items
    let sorted := results.insertionSort
      (fun a b => strLe (normalize_text a.stop_name) (normalize_text b.stop_name) = true)
    .ok (sorted, { st with stops_cache := dinsert cache_key sorted st.stops_cache },
         1, probes)

/-- The line-filtering step of `search_stop` (`continue` on a fuzzy
score below the threshold when the corresponding query is truthy). -/
def filterLines (line_query dest_query : Option Str) (entries : List LineEntry) :
    List LineEntry :=
  entries.filter (fun li =>
    (match line_query with
     | some lq =>
       if truthyS lq then
         !decide (max (fuzzy_match lq li.line_name) (fuzzy_match lq li.line_code) < 1/2)
       else true
     | none => true)
    &&
    (match dest_query with
     | some dq =>
       if truthyS dq then !decide (fuzzy_match dq li.dest_name < 3/10) else true
     | none => true))

/-- The stop-collection loop of `search_stop`: for each surviving line
(the caller caps the list at 5), fetch its stop list and keep each stop
scoring at least 0.3 against the stop query, paired with its score. -/
def collectScored (ds : DataSource) :
    ClientState → List LineEntry → Str → Except Str (List (ℚ × SearchResult) × ClientState)
  | st, [], _ => .ok ([], st)
  | st, li :: rest, sq => do
    let (stops, st1, _, _) ← TBMClient.get_stops_for_line ds st li.line_ref li.direction_ref BBOX
    let scored := stops.filterMap (fun sp =>
      let score := fuzzy_match sq sp.stop_name
      if 3/10 ≤ score then
        some (score,
          { line_ref := li.line_ref, line_name := li.line_name, line_code := li.line_code,
            direction_ref := li.direction_ref, dest_name := li.dest_name,
            stop_point_ref := some sp.stop_point_ref, stop_name := some sp.stop_name })
      else none)
    let (more, st2) ← collectScored ds st1 rest sq
    .ok (scored ++ more, st2)

/-- The descending-score order used by `search_stop`'s final sort
(`key=lambda x: -x["score"]`, stable). -/
def scoreRel (a b : ℚ × SearchResult) : Prop := b.1 ≤ a.1

instance : DecidableRel scoreRel :=
  fun a b => inferInstanceAs (Decidable (b.1 ≤ a.1))

/-- `TBMClient.search_stop`. -/
def TBMClient.search_stop (ds : DataSource) (st : ClientState)
    (stop_query : Option Str := none) (line_query : Option Str := none)
    (dest_query : Option Str := none) :
    Except Str (List SearchResult × ClientState) := do
  let (lines, st1, _) ← TBMClient.get_lines ds st
  let matching := filterLines line_query dest_query (lines.map Prod.snd)
  if !truthyO stop_query then
    match matching with
    | [] => .ok ([], st1)
    | line :: _ =>
      .ok ([{ line_ref := line.line_ref, line_name := line.line_name,
              line_code := line.line_code, direction_ref := line.direction_ref,
              dest_name := line.dest_name, stop_point_ref := none, stop_name := none }], st1)
  else do
    let (scored, st2) ← collectScored ds st1 (matching.take 5) (stop_query.getD [])
    let sortedR := scored.insertionSort scoreRel
    .ok ((sortedR.take 10).map Prod.snd, st2)

/-- `TBMClient.find_line_by_query`. -/
def TBMClient.find_line_by_query (ds : DataSource) (st : ClientState) (query : Str) :
    Except Str (Option LineEntry × ClientState) := do
  let (lines, st1, _) ← TBMClient.get_lines ds st
  let best := lines.foldl (fun (acc : Option LineEntry × ℚ) kv =>
    let score := max (fuzzy_match query kv.2.line_name) (fuzzy_match query kv.2.line_code)
    if acc.2 < score then (some kv.2, score) else acc) (none, 0)
  .ok ((if 1/2 ≤ best.2 then best.1 else none), st1)

/-! ## Concrete data-source fixtures -/

/-- A lines-discovery item: line `L1` "Tram C", two directions. -/
def li1 : LineItem :=
  { LineRef := .str (cs "L1"), LineName := .str (cs "Tram C"), LineCode := .str (cs "C"),
    Destinations := [
      { DirectionRef := .str (cs "1"), PlaceName := .str (cs "Les Pyrénées") },
      { DirectionRef := .str (cs "2"), PlaceName := .str (cs "Centre") } ] }

/-- A stop-discovery item served by `L1`. -/
def sp1 : StopItem :=
  { StopName := .str (cs "Quarante Journaux"), StopPointRef := .str (cs "SP1"),
    Lines := [.str (cs "L1")] }

/-- A second stop-discovery item served by `L1`. -/
def sp2 : StopItem :=
  { StopName := .str (cs "Porte de Bourgogne"), StopPointRef := .str (cs "SP2"),
    Lines := [.str (cs "L1")] }

/-- A monitored visit with distinct aimed and expected times. -/
def vr1 : VisitRaw :=
  { LineRef := .str (cs "L1"), DirectionRef := .str (cs "1"),
    DestinationName := .str (cs "Les Pyrénées"), DirectionName := .null,
    AimedDepartureTime := some (cs "T1"), AimedArrivalTime := none,
    ExpectedDepartureTime := some (cs "T2"), ExpectedArrivalTime := none }

/-- A healthy data source: one line, two directions, two stops, one
visit per monitoring probe. -/
def dsA : DataSource :=
  { linesDiscovery := .ok [li1],
    stopPointsDiscovery := fun _ => .ok [sp1, sp2],
    stopMonitoring := fun _ _ _ _ _ => .ok [[vr1]] }

/-- The catalog `get_lines` builds from `dsA`. -/
def m1 : List (Str × LineEntry) :=
  [(cs "L1-1", { line_ref := cs "L1", line_name := cs "Tram C", line_code := cs "C",
                 dest_name := cs "Les Pyrénées", direction_ref := 1 }),
   (cs "L1-2", { line_ref := cs "L1", line_name := cs "Tram C", line_code := cs "C",
                 dest_name := cs "Centre", direction_ref := 2 })]

/-- The state after `get_lines` on `dsA` from a fresh client. -/
def st1 : ClientState := { lines_cache := some m1, stops_cache := [] }

/-- The stop list `get_stops_for_line` builds from `dsA` for `L1`
direction 1, sorted by normalized stop name (`"40 journaux"` sorts
before `"porte de bourgogne"`). -/
def stops1 : List StopRec :=
  [{ stop_name := cs "Quarante Journaux", stop_point_ref := cs "SP1", direction_ref := 1 },
   { stop_name := cs "Porte de Bourgogne", stop_point_ref := cs "SP2", direction_ref := 1 }]

/-- The state after `get_stops_for_line dsA _ "L1" 1` from a fresh
client. -/
def st2 : ClientState := { lines_cache := none, stops_cache := [(cs "L1-1", stops1)] }

/-! ## Per-stop probe failures in `get_stops_for_line` (C1) -/

/-- A data source whose stop discovery succeeds but whose every
live-departure probe fails. -/
def dsProbe : DataSource :=
  { linesDiscovery := .ok [],
    stopPointsDiscovery := fun _ => .ok [sp1],
    stopMonitoring := fun _ _ _ _ _ => .error (cs "PE") }

/-! ## Cache population (C3) -/

/-- A data source whose line catalog is empty. -/
def dsEmptyCat : DataSource :=
  { linesDiscovery := .ok [],
    stopPointsDiscovery := fun _ => .error (cs "E"),
    stopMonitoring := fun _ _ _ _ _ => .error (cs "E") }

/-- The state after caching an empty line catalog. -/
def stEmptyCat : ClientState := { lines_cache := some [], stops_cache := [] }

/-! ## Error propagation from the line-catalog fetch (C7) and the
empty-query behaviour of `find_line_by_query` (C10) -/

/-- A data source whose every endpoint fails with a `DataSourceError`. -/
def dsNull : DataSource :=
  { linesDiscovery := .error (cs "E"),
    stopPointsDiscovery := fun _ => .error (cs "E"),
    stopMonitoring := fun _ _ _ _ _ => .error (cs "E") }

/-- A catalog entry with non-empty name and code. -/
def eA : LineEntry :=
  { line_ref := cs "A", line_name := cs "a", line_code := cs "b",
    dest_name := cs "d", direction_ref := 1 }

/-- A catalog entry whose name and code are both empty. -/
def eB : LineEntry :=
  { line_ref := cs "B", line_name := [], line_code := [],
    dest_name := cs "d", direction_ref := 2 }

/-- A state whose populated line catalog holds `eA` first and `eB`
second. -/
def stAB : ClientState :=
  { lines_cache := some [(cs "A-1", eA), (cs "B-2", eB)], stops_cache := [] }

/-- The line-only result `search_stop` builds from `dsA`'s first
catalog entry. -/
def r0 : SearchResult :=
  { line_ref := cs "L1", line_name := cs "Tram C", line_code := cs "C",
    direction_ref := 1, dest_name := cs "Les Pyrénées",
    stop_point_ref := none, stop_name := none }

/-! ## `search_stop` result ordering (C5) -/

instance : IsTotal (ℚ × SearchResult) scoreRel := ⟨fun a b => le_total b.1 a.1⟩

instance : IsTrans (ℚ × SearchResult) scoreRel :=
  ⟨fun _ _ _ hab hbc => le_trans hbc hab⟩

/-- The stop list `get_stops_for_line` builds from `dsA` for `L1`
direction 2. -/
def stops2 : List StopRec :=
  [{ stop_name := cs "Quarante Journaux", stop_point_ref := cs "SP1", direction_ref := 2 },
   { stop_name := cs "Porte de Bourgogne", stop_point_ref := cs "SP2", direction_ref := 2 }]

/-- The state after `search_stop dsA _ (some "40 journaux")` from a
fresh client. -/
def stW : ClientState :=
  { lines_cache := some m1, stops_cache := [(cs "L1-1", stops1), (cs "L1-2", stops2)] }

/-- The results of `search_stop dsA _ (some "40 journaux")`. -/
def resW : List SearchResult :=
  [{ line_ref := cs "L1", line_name := cs "Tram C", line_code := cs "C",
     direction_ref := 1, dest_name := cs "Les Pyrénées",
     stop_point_ref := some (cs "SP1"), stop_name := some (cs "Quarante Journaux") },
   { line_ref := cs "L1", line_name := cs "Tram C", line_code := cs "C",
     direction_ref := 2, dest_name := cs "Centre",
     stop_point_ref := some (cs "SP1"), stop_name := some (cs "Quarante Journaux") }]

example : normalize_text (cs "arret quarante journaux") = cs "arret 40 journaux" := by decide
example : normalize_text (cs "dix-sept") = cs "10-7" := by decide
example : normalize_text (cs "Pyrénées") = cs "pyrenees" := by decide
example : normalize_text (cs "  Quarante Journaux ") = cs "40 journaux" := by decide

example : extract_keywords (cs "le pyrenees-ste-croix") =
    [cs "pyrenees", cs "ste", cs "croix"] := by decide
example : fuzzy_match (cs "40 journaux") (cs "Quarante Journaux") = 1 := by decide
example : fuzzy_match (cs "pyrénées") (cs "pyrenees-ste-croix") = 9/10 :=
  of_decide_eq_true (by with_unfolding_all rfl)
example : fuzzy_match (cs "grand pyrenees x") (cs "pyrenees-ste-croix") = 7/20 :=
  of_decide_eq_true (by with_unfolding_all rfl)

/-! ## Character-level facts for idempotence of `normalize_text` -/

theorem isWordChar_of_isLetterC {c : Char} (h : isLetterC c = true) :
    isWordChar c = true := by
  simp [isWordChar, h]

theorem isWordChar_of_isDigitC {c : Char} (h : isDigitC c = true) :
    isWordChar c = true := by
  simp [isWordChar, isLetterC, isDigitC] at h ⊢
  omega

theorem letter_ne_digit {a b : Char} (ha : isLetterC a = true) (hb : isDigitC b = true) :
    a ≠ b := by
  intro h
  rw [h] at ha
  simp [isLetterC, isDigitC] at ha hb
  omega

theorem not_space_of_digit {c : Char} (h : isDigitC c = true) : isSpaceC c = false := by
  simp [isDigitC] at h
  simp [isSpaceC]
  omega

/-- `(Char.ofNat n).toNat = n` below the surrogate range. -/
theorem toNat_ofNat_small {n : Nat} (h : n < 55296) : (Char.ofNat n).toNat = n := by
  have hv : n.isValidChar := Or.inl h
  unfold Char.ofNat
  rw [dif_pos hv]
  simp [Char.ofNatAux, Char.toNat, UInt32.toNat]

/-- The case analysis of `lowerChar`: either it maps an ASCII capital
into `[97, 122]`, or it is the identity. -/
theorem lowerChar_cases (c : Char) :
    (lowerChar c = c) ∨
    (97 ≤ (lowerChar c).toNat ∧ (lowerChar c).toNat ≤ 122 ∧
      65 ≤ c.toNat ∧ c.toNat ≤ 90) := by
  unfold lowerChar
  by_cases h : 65 ≤ c.toNat ∧ c.toNat ≤ 90
  · rw [if_pos h]
    right
    rw [toNat_ofNat_small (by omega)]
    omega
  · rw [if_neg h]
    left
    rfl

/-- `lowerChar` fixes anything outside the capital range. -/
theorem lowerChar_eq_self_of_not_upper {c : Char}
    (h : ¬(65 ≤ c.toNat ∧ c.toNat ≤ 90)) : lowerChar c = c := by
  unfold lowerChar
  rw [if_neg h]

theorem lowerChar_idem (c : Char) : lowerChar (lowerChar c) = lowerChar c := by
  rcases lowerChar_cases c with h | ⟨h1, h2, -, -⟩
  · rw [h, h]
  · exact lowerChar_eq_self_of_not_upper (by omega)

theorem lowerChar_toNat_lt {c : Char} (h : c.toNat < 128) :
    (lowerChar c).toNat < 128 := by
  rcases lowerChar_cases c with hc | ⟨h1, h2, -, -⟩
  · rw [hc]; exact h
  · omega

/-- `foldChar` fixes the ASCII range. -/
theorem foldChar_ascii {c : Char} (h : c.toNat < 128) : foldChar c = [c] := by
  unfold foldChar
  rw [if_pos h]

/-- A lookup in a table whose values all satisfy a bound returns a
bounded value. -/
theorem lookup_snd_lt {l : List (Char × Char)} (hl : ∀ x ∈ l, x.2.toNat < 128) :
    ∀ {c b : Char}, l.lookup c = some b → b.toNat < 128 := by
  induction l with
  | nil => intro c b h; simp [List.lookup] at h
  | cons kv rest ih =>
    obtain ⟨k, v⟩ := kv
    intro c b h
    simp only [List.lookup] at h
    cases hk : c == k with
    | true =>
      rw [hk] at h
      simp at h
      rw [← h]
      exact hl (k, v) (by simp)
    | false =>
      rw [hk] at h
      exact ih (fun x hx => hl x (by simp [hx])) h

/-- Either `foldChar` fixes a character, or all its output characters
are ASCII. -/
theorem foldChar_cases (c : Char) :
    foldChar c = [c] ∨ (∀ c' ∈ foldChar c, c'.toNat < 128) := by
  unfold foldChar
  by_cases h1 : c.toNat < 128
  · left; rw [if_pos h1]
  · rw [if_neg h1]
    by_cases h2 : 768 ≤ c.toNat ∧ c.toNat ≤ 879
    · right; rw [if_pos h2]; intro c' hc'; simp at hc'
    · rw [if_neg h2]
      cases hlk : accentPairs.lookup c with
      | none => left; rfl
      | some b =>
        right
        intro c' hc'
        simp at hc'
        subst hc'
        exact lookup_snd_lt (by decide) hlk

/-- Characters produced by lowering the accent-folding output are fixed
by another fold-then-lower pass. -/
theorem stable_lower_fold {c c' : Char} (h : c' ∈ foldChar c) :
    foldChar (lowerChar c') = [lowerChar c'] ∧ lowerChar (lowerChar c') = lowerChar c' := by
  have hidem := lowerChar_idem c'
  rcases foldChar_cases c with hf | hall
  · rw [hf] at h
    simp at h
    rw [h]
    by_cases hlt : c.toNat < 128
    · exact ⟨foldChar_ascii (lowerChar_toNat_lt hlt), lowerChar_idem c⟩
    · have hself : lowerChar c = c := lowerChar_eq_self_of_not_upper (by omega)
      rw [hself]
      exact ⟨hf, hself⟩
  · have hlt := hall c' h
    exact ⟨foldChar_ascii (lowerChar_toNat_lt hlt), hidem⟩

theorem digit_stable {c : Char} (h : isDigitC c = true) :
    foldChar c = [c] ∧ lowerChar c = c := by
  simp [isDigitC] at h
  exact ⟨foldChar_ascii (by omega), lowerChar_eq_self_of_not_upper (by omega)⟩

/-- Membership in `foldStr`. -/
theorem mem_foldStr {c : Char} : ∀ {s : Str}, c ∈ foldStr s → ∃ a, c ∈ foldChar a := by
  intro s
  induction s with
  | nil => intro h; simp [foldStr] at h
  | cons a r ih =>
    intro h
    rcases List.mem_append.mp h with h1 | h2
    · exact ⟨a, h1⟩
    · exact ih h2

theorem foldStr_fixed : ∀ {s : Str}, (∀ c ∈ s, foldChar c = [c]) → foldStr s = s := by
  intro s
  induction s with
  | nil => intro _; rfl
  | cons a r ih =>
    intro h
    show foldChar a ++ foldStr r = a :: r
    rw [h a (by simp), ih (fun c hc => h c (by simp [hc]))]
    rfl

theorem lowerStr_fixed {s : Str} (h : ∀ c ∈ s, lowerChar c = c) : lowerStr s = s := by
  induction s with
  | nil => rfl
  | cons a r ih =>
    show lowerChar a :: lowerStr r = a :: r
    rw [h a (by simp), ih (fun c hc => h c (by simp [hc]))]

theorem dropWhile_eq_self_of_headOkB {s : Str} (h : headOkB s = true) :
    s.dropWhile isSpaceC = s := by
  cases s with
  | nil => rfl
  | cons c r =>
    simp only [headOkB, Bool.not_eq_true'] at h
    simp [List.dropWhile_cons, h]

theorem headOkB_dropWhile (l : Str) : headOkB (l.dropWhile isSpaceC) = true := by
  induction l with
  | nil => rfl
  | cons c r ih =>
    by_cases hc : isSpaceC c = true
    · simpa [List.dropWhile_cons, hc] using ih
    · simp only [Bool.not_eq_true] at hc
      simp [List.dropWhile_cons, hc, headOkB]

theorem trimStr_eq_self {s : Str} (h1 : headOkB s = true) (h2 : lastOkB s = true) :
    trimStr s = s := by
  unfold trimStr
  rw [dropWhile_eq_self_of_headOkB h1]
  have hrev : s.reverse.dropWhile isSpaceC = s.reverse := by
    apply dropWhile_eq_self_of_headOkB
    cases hr : s.reverse with
    | nil => rfl
    | cons c r =>
      have : s.getLast? = some c := by
        rw [← List.head?_reverse, hr]
        rfl
      simp only [lastOkB, this] at h2
      simpa [headOkB] using h2
  rw [hrev, List.reverse_reverse]

theorem headOkB_append_left {x y : Str} (h : headOkB (x ++ y) = true) :
    headOkB x = true := by
  cases x with
  | nil => rfl
  | cons c r => simpa [headOkB] using h

theorem trimStr_headOkB (s : Str) : headOkB (trimStr s) = true := by
  unfold trimStr
  set A := s.dropWhile isSpaceC with hA
  set X := A.reverse.dropWhile isSpaceC with hX
  have hsplit : A.reverse.takeWhile isSpaceC ++ X = A.reverse :=
    List.takeWhile_append_dropWhile _ _
  have hrev : A = X.reverse ++ (A.reverse.takeWhile isSpaceC).reverse := by
    have := congrArg List.reverse hsplit
    rw [List.reverse_append, List.reverse_reverse] at this
    exact this.symm
  have hAok : headOkB A = true := headOkB_dropWhile s
  rw [hrev] at hAok
  exact headOkB_append_left hAok

theorem trimStr_lastOkB (s : Str) : lastOkB (trimStr s) = true := by
  unfold trimStr
  unfold lastOkB
  rw [List.getLast?_reverse]
  cases hX : (s.dropWhile isSpaceC).reverse.dropWhile isSpaceC with
  | nil => rfl
  | cons c r =>
    have := headOkB_dropWhile (s.dropWhile isSpaceC).reverse
    rw [hX] at this
    simpa [headOkB] using this

theorem trimStr_subset {s : Str} {c : Char} (h : c ∈ trimStr s) : c ∈ s := by
  unfold trimStr at h
  rw [List.mem_reverse] at h
  have h2 := (List.dropWhile_suffix (l := (s.dropWhile isSpaceC).reverse)
    (p := isSpaceC)).sublist.subset h
  rw [List.mem_reverse] at h2
  exact (List.dropWhile_suffix (p := isSpaceC)).sublist.subset h2

/-! ## Facts about the word-boundary substitution scan -/

theorem pfx_append_drop : ∀ {w s : Str}, pfx w s = true → w ++ s.drop w.length = s := by
  intro w
  induction w with
  | nil => intro s _; simp
  | cons a x ih =>
    intro s h
    cases s with
    | nil => simp [pfx] at h
    | cons b y =>
      simp only [pfx, Bool.and_eq_true, beq_iff_eq] at h
      obtain ⟨rfl, h2⟩ := h
      simp only [List.cons_append, List.length_cons, List.drop_succ_cons]
      rw [ih h2]

theorem pfx_refl_append : ∀ (w z : Str), pfx w (w ++ z) = true := by
  intro w
  induction w with
  | nil => intro z; rfl
  | cons a x ih => intro z; simp [pfx, ih]

theorem pfx_trans {b w s : Str} (h1 : pfx b w = true) (h2 : pfx w s = true) :
    pfx b s = true := by
  have hw := pfx_append_drop h1
  have hs := pfx_append_drop h2
  rw [← hs, ← hw, List.append_assoc]
  exact pfx_refl_append b _

/-- A failed whole-word scan means the substitution is the identity. -/
theorem subWordAux_eq_self {h : Char} {t d : Str} :
    ∀ (n : Nat) (prev : Option Char) (s : Str), s.length ≤ n →
      hasOccAux (h :: t) prev s = false → subWordAux h t d n prev s = s := by
  intro n
  induction n with
  | zero =>
    intro prev s hs _
    cases s with
    | nil => rfl
    | cons c r => simp at hs
  | succ n ih =>
    intro prev s hs hocc
    cases s with
    | nil => rfl
    | cons c rest =>
      simp only [hasOccAux, Bool.or_eq_false_iff] at hocc
      simp only [subWordAux, hocc.1, Bool.false_eq_true, if_false]
      rw [ih (some c) rest (by simp at hs; omega) hocc.2]

/-- The scan result only depends on the word-character class of the
previous-character context. -/
theorem hasOccAux_prev_congr {v : Str} : ∀ (X : Str) (a b : Char),
    isWordChar a = isWordChar b → hasOccAux v (some a) X = hasOccAux v (some b) X := by
  intro X
  induction X with
  | nil => intro a b _; rfl
  | cons c r _ =>
    intro a b hab
    simp only [hasOccAux, matchAt, prevOk, hab]

/-- Scanning for a letter-initial word across an all-digit block only
moves the context to the block's last character. -/
theorem hasOccAux_append_digits {vh : Char} {vt : Str} (hvh : isLetterC vh = true) :
    ∀ (d : Str), (∀ c ∈ d, isDigitC c = true) → ∀ (X : Str) (prev : Option Char),
      hasOccAux (vh :: vt) prev (d ++ X) = hasOccAux (vh :: vt) (prevAfter d prev) X := by
  intro d
  induction d with
  | nil => intro _ X prev; rfl
  | cons e d' ih =>
    intro hd X prev
    have he : isDigitC e = true := hd e (by simp)
    have hne : (vh == e) = false := by simp [letter_ne_digit hvh he]
    show hasOccAux (vh :: vt) prev (e :: (d' ++ X)) = _
    simp only [hasOccAux]
    have hmatch : matchAt (vh :: vt) prev (e :: (d' ++ X)) = false := by
      simp [matchAt, pfx, hne]
    rw [hmatch]
    simp only [Bool.false_or]
    rw [ih (fun c hc => hd c (by simp [hc])) X (some e)]
    congr 1
    cases d' with
    | nil => rfl
    | cons f d'' =>
      simp only [prevAfter, List.getLast?_cons_cons]
      cases hgl : (f :: d'').getLast? with
      | none => exact absurd hgl (by simp)
      | some x => rfl

/-- Absence of occurrences transfers to any suffix with its true
previous-character context. -/
theorem hasOccAux_suffix {v : Str} :
    ∀ (pre : Str) (c0 : Char) (suf : Str) (prev : Option Char),
      hasOccAux v prev (pre ++ c0 :: suf) = false → hasOccAux v (some c0) suf = false := by
  intro pre
  induction pre with
  | nil =>
    intro c0 suf prev h
    simp only [List.nil_append, hasOccAux, Bool.or_eq_false_iff] at h
    exact h.2
  | cons p pre' ih =>
    intro c0 suf prev h
    simp only [List.cons_append, hasOccAux, Bool.or_eq_false_iff] at h
    exact ih c0 suf (some p) h.2

/-- A whole-word match of an all-letter word found in the output of the
substitution scan pulls back to a match at the same position of the
input (digits are word characters, so replacement blocks cannot create
or host new boundary-bounded letter matches). -/
theorem pull_back {h : Char} {t d : Str}
    (hd : ∀ c ∈ d, isDigitC c = true) (hdne : d ≠ []) :
    ∀ (n : Nat) (s : Str) (prev : Option Char) (v : Str),
      s.length ≤ n → (∀ c ∈ v, isLetterC c = true) →
      pfx v (subWordAux h t d n prev s) = true →
      nextOk ((subWordAux h t d n prev s).drop v.length) = true →
      pfx v s = true ∧ nextOk (s.drop v.length) = true := by
  intro n
  induction n with
  | zero =>
    intro s prev v hs hv h1 h2
    cases s with
    | nil =>
      cases v with
      | nil => exact ⟨rfl, by simpa using h2⟩
      | cons vh vt => simp [pfx] at h1
    | cons c r => simp at hs
  | succ n ih =>
    intro s prev v hs hv h1 h2
    cases s with
    | nil =>
      cases v with
      | nil => exact ⟨rfl, by simpa using h2⟩
      | cons vh vt => simp [pfx] at h1
    | cons c rest =>
      obtain ⟨e, d', rfl⟩ : ∃ e d', d = e :: d' := by
        cases d with
        | nil => exact absurd rfl hdne
        | cons e d' => exact ⟨e, d', rfl⟩
      have he : isDigitC e = true := hd e (by simp)
      by_cases hm : matchAt (h :: t) prev (c :: rest) = true
      · exfalso
        rw [subWordAux, if_pos hm] at h1 h2
        cases v with
        | nil =>
          simp only [List.length_nil, List.drop_zero, List.cons_append, nextOk,
            Bool.not_eq_true'] at h2
          rw [isWordChar_of_isDigitC he] at h2
          cases h2
        | cons vh vt =>
          simp only [List.cons_append, pfx, Bool.and_eq_true, beq_iff_eq] at h1
          exact letter_ne_digit (hv vh (by simp)) he h1.1
      · rw [subWordAux, if_neg hm] at h1 h2
        cases v with
        | nil =>
          refine ⟨rfl, ?_⟩
          simpa only [List.length_nil, List.drop_zero, nextOk] using h2
        | cons vh vt =>
          simp only [pfx, Bool.and_eq_true, beq_iff_eq] at h1
          obtain ⟨rfl, h1'⟩ := h1
          simp only [List.length_cons, List.drop_succ_cons] at h2
          have hrec := ih rest (some vh) vt (by simp at hs; omega)
            (fun x hx => hv x (by simp [hx])) h1' h2
          refine ⟨by simp [pfx, hrec.1], ?_⟩
          simpa only [List.length_cons, List.drop_succ_cons] using hrec.2

/-- Decomposition of a whole-word match at the head of a cons. -/
theorem matchAt_cons_iff {h : Char} {t : Str} {prev : Option Char} {c : Char} {X : Str} :
    matchAt (h :: t) prev (c :: X) = true ↔
      prevOk prev = true ∧ h = c ∧ pfx t X = true ∧ nextOk (X.drop t.length) = true := by
  simp [matchAt, pfx, Bool.and_eq_true, beq_iff_eq, List.drop_succ_cons, and_assoc]

/-- The nonempty digit block has a last character, itself a digit. -/
theorem digits_getLast {d : Str} (hd : ∀ c ∈ d, isDigitC c = true) (hdne : d ≠ []) :
    ∃ x, d.getLast? = some x ∧ isDigitC x = true := by
  cases d with
  | nil => exact absurd rfl hdne
  | cons e d' =>
    cases hgl : (e :: d').getLast? with
    | none => exact absurd hgl (by simp)
    | some x => exact ⟨x, rfl, hd x (List.mem_of_getLast?_eq_some hgl)⟩

/-- After the substitution scan for an all-letter word, no whole-word
occurrence of that word remains. -/
theorem kill_occ {h : Char} {t d : Str}
    (hw : ∀ c ∈ h :: t, isLetterC c = true)
    (hd : ∀ c ∈ d, isDigitC c = true) (hdne : d ≠ []) :
    ∀ (n : Nat) (prev : Option Char) (s : Str), s.length ≤ n →
      hasOccAux (h :: t) prev (subWordAux h t d n prev s) = false := by
  intro n
  induction n with
  | zero =>
    intro prev s hs
    cases s with
    | nil => rfl
    | cons c r => simp at hs
  | succ n ih =>
    intro prev s hs
    cases s with
    | nil => rfl
    | cons c rest =>
      by_cases hm : matchAt (h :: t) prev (c :: rest) = true
      · rw [subWordAux, if_pos hm]
        rw [hasOccAux_append_digits (hw h (by simp)) d hd _ prev]
        obtain ⟨x, hx, hxd⟩ := digits_getLast hd hdne
        have hpa : prevAfter d prev = some x := by unfold prevAfter; rw [hx]
        rw [hpa]
        rw [hasOccAux_prev_congr _ x ((h :: t).getLast (by simp))
          (by rw [isWordChar_of_isDigitC hxd,
                  isWordChar_of_isLetterC (hw _ (List.getLast_mem (by simp)))])]
        exact ih (some ((h :: t).getLast (by simp))) (rest.drop t.length)
          (by simp only [List.length_drop]; simp at hs; omega)
      · rw [subWordAux, if_neg hm]
        simp only [hasOccAux, Bool.or_eq_false_iff]
        refine ⟨?_, ih (some c) rest (by simp at hs; omega)⟩
        cases hmt : matchAt (h :: t) prev
            (c :: subWordAux h t d n (some c) rest) with
        | false => rfl
        | true =>
          exfalso
          obtain ⟨hprev, hhc, hpfx, hnext⟩ := matchAt_cons_iff.mp hmt
          have hrec := pull_back hd hdne n rest (some c) t (by simp at hs; omega)
            (fun x hx => hw x (by simp [hx])) hpfx hnext
          exact hm (matchAt_cons_iff.mpr ⟨hprev, hhc, hrec.1, hrec.2⟩)

/-- The substitution scan for one all-letter word creates no whole-word
occurrence of any other all-letter word. -/
theorem preserve_noOcc {h : Char} {t d : Str} {vh : Char} {vt : Str}
    (hw : ∀ c ∈ h :: t, isLetterC c = true)
    (hd : ∀ c ∈ d, isDigitC c = true) (hdne : d ≠ [])
    (hv : ∀ c ∈ vh :: vt, isLetterC c = true) :
    ∀ (n : Nat) (prev : Option Char) (s : Str), s.length ≤ n →
      hasOccAux (vh :: vt) prev s = false →
      hasOccAux (vh :: vt) prev (subWordAux h t d n prev s) = false := by
  intro n
  induction n with
  | zero =>
    intro prev s hs hocc
    cases s with
    | nil => rfl
    | cons c r => simp at hs
  | succ n ih =>
    intro prev s hs hocc
    cases s with
    | nil => rfl
    | cons c rest =>
      simp only [hasOccAux, Bool.or_eq_false_iff] at hocc
      obtain ⟨hocc1, hocc2⟩ := hocc
      by_cases hm : matchAt (h :: t) prev (c :: rest) = true
      · rw [subWordAux, if_pos hm]
        rw [hasOccAux_append_digits (hv vh (by simp)) d hd _ prev]
        obtain ⟨x, hx, hxd⟩ := digits_getLast hd hdne
        have hpa : prevAfter d prev = some x := by unfold prevAfter; rw [hx]
        rw [hpa]
        rw [hasOccAux_prev_congr _ x ((h :: t).getLast (by simp))
          (by rw [isWordChar_of_isDigitC hxd,
                  isWordChar_of_isLetterC (hw _ (List.getLast_mem (by simp)))])]
        apply ih (some ((h :: t).getLast (by simp))) (rest.drop t.length)
          (by simp only [List.length_drop]; simp at hs; omega)
        -- the suffix of the input past the matched word has no occurrence
        obtain ⟨hprev, hhc, hpfx, hnext⟩ := matchAt_cons_iff.mp hm
        have hpfx' : pfx (h :: t) (c :: rest) = true := by
          simp [pfx, hhc, hpfx]
        have hsplit : (h :: t) ++ rest.drop t.length = c :: rest := by
          have := pfx_append_drop hpfx'
          simpa [List.drop_succ_cons] using this
        have hdl : (h :: t).dropLast ++ ((h :: t).getLast (by simp)) :: rest.drop t.length
            = c :: rest := by
          rw [← hsplit]
          conv_rhs => rw [← List.dropLast_append_getLast (l := h :: t) (by simp)]
          rw [List.append_assoc]
          rfl
        apply hasOccAux_suffix ((h :: t).dropLast) _ _ prev
        rw [hdl]
        simp only [hasOccAux, Bool.or_eq_false_iff]
        exact ⟨hocc1, hocc2⟩
      · rw [subWordAux, if_neg hm]
        simp only [hasOccAux, Bool.or_eq_false_iff]
        refine ⟨?_, ih (some c) rest (by simp at hs; omega) hocc2⟩
        cases hmt : matchAt (vh :: vt) prev
            (c :: subWordAux h t d n (some c) rest) with
        | false => rfl
        | true =>
          exfalso
          obtain ⟨hprev, hhc, hpfx, hnext⟩ := matchAt_cons_iff.mp hmt
          have hrec := pull_back hd hdne n rest (some c) vt (by simp at hs; omega)
            (fun x hx => hv x (by simp [hx])) hpfx hnext
          rw [matchAt_cons_iff.mpr ⟨hprev, hhc, hrec.1, hrec.2⟩] at hocc1
          cases hocc1

/-- A whole-word occurrence of a compound word (its base followed by a
non-word character) yields a whole-word occurrence of the base. -/
theorem compound_occ {b w : Str} {c0 : Char} {t2 : Str}
    (hb : pfx b w = true) (hwd : w.drop b.length = c0 :: t2)
    (hc0 : isWordChar c0 = false) :
    ∀ (s : Str) (prev : Option Char),
      hasOccAux w prev s = true → hasOccAux b prev s = true := by
  intro s
  induction s with
  | nil => intro prev h; simp [hasOccAux] at h
  | cons c rest ih =>
    intro prev h
    simp only [hasOccAux, Bool.or_eq_true] at h ⊢
    rcases h with h1 | h2
    · left
      simp only [matchAt, Bool.and_eq_true] at h1 ⊢
      obtain ⟨⟨hprev, hpfx⟩, hnext⟩ := h1
      refine ⟨⟨hprev, pfx_trans hb hpfx⟩, ?_⟩
      have hsw : w ++ (c :: rest).drop w.length = c :: rest := pfx_append_drop hpfx
      have hsb : b ++ w.drop b.length = w := pfx_append_drop hb
      have hrepr : c :: rest = (b ++ (c0 :: t2)) ++ (c :: rest).drop w.length := by
        conv_lhs => rw [← hsw]
        congr 1
        rw [← hsb, hwd]
      rw [hrepr]
      have hlen : (b ++ (c0 :: t2) : Str).drop b.length = c0 :: t2 ++ [] := by
        simp [List.drop_left]
      rw [List.append_assoc, List.drop_left]
      simp [nextOk, hc0]
    · right
      exact ih (some c) h2

theorem subWord_kill {w d : Str} (hwne : w ≠ []) (hwl : w.all isLetterC = true)
    (hdd : d.all isDigitC = true) (hdne : d ≠ []) (s : Str) :
    hasOccAux w none (subWord w d s) = false := by
  cases w with
  | nil => exact absurd rfl hwne
  | cons h t =>
    exact kill_occ (List.all_eq_true.mp hwl) (List.all_eq_true.mp hdd) hdne
      s.length none s le_rfl

theorem subWord_preserve {w d v : Str} (hwne : w ≠ []) (hwl : w.all isLetterC = true)
    (hdd : d.all isDigitC = true) (hdne : d ≠ [])
    (hvne : v ≠ []) (hvl : v.all isLetterC = true) {s : Str}
    (hocc : hasOccAux v none s = false) :
    hasOccAux v none (subWord w d s) = false := by
  cases w with
  | nil => exact absurd rfl hwne
  | cons h t =>
    cases v with
    | nil => exact absurd rfl hvne
    | cons vh vt =>
      exact preserve_noOcc (List.all_eq_true.mp hwl) (List.all_eq_true.mp hdd) hdne
        (List.all_eq_true.mp hvl) s.length none s le_rfl hocc

theorem subWord_id {w d s : Str} (hocc : hasOccAux w none s = false) :
    subWord w d s = s := by
  cases w with
  | nil => rfl
  | cons h t => exact subWordAux_eq_self s.length none s le_rfl hocc

theorem applyTable_cons (w d : Str) (rest : List (Str × Str)) (s : Str) :
    applyTable ((w, d) :: rest) s = applyTable rest (subWord w d s) := rfl

theorem applyTable_id : ∀ (table : List (Str × Str)) (s : Str),
    (∀ wd ∈ table, subWord wd.1 wd.2 s = s) → applyTable table s = s := by
  intro table
  induction table with
  | nil => intro s _; rfl
  | cons wd rest ih =>
    intro s h
    obtain ⟨w, d⟩ := wd
    rw [applyTable_cons, h (w, d) (by simp)]
    exact ih s (fun x hx => h x (by simp [hx]))

/-- The invariant run of the substitution table: processed simple words
stay absent, and at the end every table word is absent. -/
theorem chainLemma :
    ∀ (table : List (Str × Str)) (dead : List Str) (s : Str),
      goodTable dead table = true →
      (∀ b ∈ dead, b ≠ [] ∧ b.all isLetterC = true ∧ hasOccAux b none s = false) →
      (∀ b ∈ dead, hasOccAux b none (applyTable table s) = false)
      ∧ (∀ wd ∈ table, hasOccAux wd.1 none (applyTable table s) = false) := by
  intro table
  induction table with
  | nil =>
    intro dead s _ hdead
    exact ⟨fun b hb => (hdead b hb).2.2, fun wd hwd => absurd hwd (by simp)⟩
  | cons wdp rest ih =>
    obtain ⟨w, d⟩ := wdp
    intro dead s hgood hdead
    simp only [goodTable, Bool.or_eq_true, Bool.and_eq_true] at hgood
    rcases hgood with ⟨hsimple, hrest⟩ | ⟨hcomp, hrest⟩
    · simp only [simpleEntry, Bool.and_eq_true, Bool.not_eq_true',
        List.isEmpty_eq_false] at hsimple
      obtain ⟨⟨⟨hwne, hwl⟩, hdne⟩, hdd⟩ := hsimple
      have hdead' : ∀ b ∈ w :: dead,
          b ≠ [] ∧ b.all isLetterC = true ∧ hasOccAux b none (subWord w d s) = false := by
        intro b hb
        rcases List.mem_cons.mp hb with rfl | hbm
        · exact ⟨hwne, hwl, subWord_kill hwne hwl hdd hdne s⟩
        · have hbp := hdead b hbm
          exact ⟨hbp.1, hbp.2.1,
            subWord_preserve hwne hwl hdd hdne hbp.1 hbp.2.1 hbp.2.2⟩
      have hres := ih (w :: dead) (subWord w d s) hrest hdead'
      rw [applyTable_cons]
      refine ⟨fun b hb => hres.1 b (by simp [hb]), fun wd hwd => ?_⟩
      rcases List.mem_cons.mp hwd with rfl | hm
      · exact hres.1 w (by simp)
      · exact hres.2 wd hm
    · simp only [compoundEntry, List.any_eq_true, Bool.and_eq_true] at hcomp
      obtain ⟨b0, hb0mem, hb0p, hb0n⟩ := hcomp
      obtain ⟨c0, t2, hdrop, hc0⟩ :
          ∃ c0 t2, w.drop b0.length = c0 :: t2 ∧ isWordChar c0 = false := by
        cases hdr : w.drop b0.length with
        | nil => rw [hdr] at hb0n; simp at hb0n
        | cons c0 t2 =>
          rw [hdr] at hb0n
          exact ⟨c0, t2, rfl, by simpa using hb0n⟩
      have hb0 := hdead b0 hb0mem
      have hwocc : hasOccAux w none s = false := by
        cases hoc : hasOccAux w none s with
        | false => rfl
        | true =>
          have := compound_occ hb0p hdrop hc0 s none hoc
          rw [hb0.2.2] at this
          cases this
      rw [applyTable_cons, subWord_id hwocc]
      have hres := ih dead s hrest hdead
      refine ⟨hres.1, fun wd hwd => ?_⟩
      rcases List.mem_cons.mp hwd with rfl | hm
      · cases hoc : hasOccAux w none (applyTable rest s) with
        | false => rfl
        | true =>
          have := compound_occ hb0p hdrop hc0 _ none hoc
          rw [hres.1 b0 hb0mem] at this
          cases this
      · exact hres.2 wd hm

/-! ## Character and edge preservation through the substitutions -/

theorem subWordAux_chars {h : Char} {t d : Str} :
    ∀ (n : Nat) (prev : Option Char) (s : Str) (x : Char),
      x ∈ subWordAux h t d n prev s → x ∈ s ∨ x ∈ d := by
  intro n
  induction n with
  | zero =>
    intro prev s x hx
    cases s with
    | nil => simp [subWordAux] at hx
    | cons c r => exact Or.inl hx
  | succ n ih =>
    intro prev s x hx
    cases s with
    | nil => simp [subWordAux] at hx
    | cons c rest =>
      by_cases hm : matchAt (h :: t) prev (c :: rest) = true
      · rw [subWordAux, if_pos hm] at hx
        rcases List.mem_append.mp hx with hx1 | hx2
        · exact Or.inr hx1
        · rcases ih _ _ _ hx2 with hx3 | hx3
          · exact Or.inl (List.mem_cons_of_mem c (List.drop_subset _ _ hx3))
          · exact Or.inr hx3
      · rw [subWordAux, if_neg hm] at hx
        rcases List.mem_cons.mp hx with rfl | hx2
        · exact Or.inl (by simp)
        · rcases ih _ _ _ hx2 with hx3 | hx3
          · exact Or.inl (List.mem_cons_of_mem c hx3)
          · exact Or.inr hx3

theorem subWord_chars {w d s : Str} {x : Char} (hx : x ∈ subWord w d s) :
    x ∈ s ∨ x ∈ d := by
  cases w with
  | nil => exact Or.inl hx
  | cons h t => exact subWordAux_chars s.length none s x hx

theorem applyTable_chars : ∀ (table : List (Str × Str)) (s : Str) (x : Char),
    x ∈ applyTable table s → x ∈ s ∨ ∃ wd ∈ table, x ∈ wd.2 := by
  intro table
  induction table with
  | nil => intro s x hx; exact Or.inl hx
  | cons wd rest ih =>
    obtain ⟨w, d⟩ := wd
    intro s x hx
    rw [applyTable_cons] at hx
    rcases ih _ x hx with hx1 | ⟨wd', hwd', hx2⟩
    · rcases subWord_chars hx1 with hx3 | hx3
      · exact Or.inl hx3
      · exact Or.inr ⟨(w, d), by simp, hx3⟩
    · exact Or.inr ⟨wd', by simp [hwd'], hx2⟩

theorem subWordAux_ne_nil {h : Char} {t d : Str} (hdne : d ≠ []) :
    ∀ (n : Nat) (prev : Option Char) (c : Char) (rest : Str),
      subWordAux h t d n prev (c :: rest) ≠ [] := by
  intro n prev c rest
  cases n with
  | zero => simp [subWordAux]
  | succ n =>
    by_cases hm : matchAt (h :: t) prev (c :: rest) = true
    · rw [subWordAux, if_pos hm]
      cases d with
      | nil => exact absurd rfl hdne
      | cons e d' => simp
    · rw [subWordAux, if_neg hm]
      simp

theorem subWordAux_head {h : Char} {t d : Str} (hdne : d ≠ []) :
    ∀ (n : Nat) (prev : Option Char) (c : Char) (rest : Str),
      ∃ x w', subWordAux h t d n prev (c :: rest) = x :: w' ∧ (x = c ∨ x ∈ d) := by
  intro n prev c rest
  cases n with
  | zero => exact ⟨c, rest, rfl, Or.inl rfl⟩
  | succ n =>
    by_cases hm : matchAt (h :: t) prev (c :: rest) = true
    · rw [subWordAux, if_pos hm]
      cases d with
      | nil => exact absurd rfl hdne
      | cons e d' => exact ⟨e, _, rfl, Or.inr (by simp)⟩
    · rw [subWordAux, if_neg hm]
      exact ⟨c, _, rfl, Or.inl rfl⟩

theorem subWordAux_last {h : Char} {t d : Str} (hdne : d ≠ []) :
    ∀ (n : Nat) (prev : Option Char) (s : Str) (x : Char), s.length ≤ n →
      (subWordAux h t d n prev s).getLast? = some x →
      s.getLast? = some x ∨ x ∈ d := by
  intro n
  induction n with
  | zero =>
    intro prev s x hs hgl
    cases s with
    | nil => simp [subWordAux] at hgl
    | cons c r => simp at hs
  | succ n ih =>
    intro prev s x hs hgl
    cases s with
    | nil => simp [subWordAux] at hgl
    | cons c rest =>
      by_cases hm : matchAt (h :: t) prev (c :: rest) = true
      · rw [subWordAux, if_pos hm] at hgl
        obtain ⟨hprev, hhc, hpfx, hnext⟩ := matchAt_cons_iff.mp hm
        have hsplit : (h :: t) ++ rest.drop t.length = c :: rest := by
          have : pfx (h :: t) (c :: rest) = true := by simp [pfx, hhc, hpfx]
          simpa [List.drop_succ_cons] using pfx_append_drop this
        cases hrd : rest.drop t.length with
        | nil =>
          rw [hrd] at hgl
          rw [subWordAux, List.append_nil] at hgl
          exact Or.inr (List.mem_of_getLast?_eq_some hgl)
        | cons y ys =>
          have hXne : subWordAux h t d n (some ((h :: t).getLast (by simp)))
              (rest.drop t.length) ≠ [] := by
            rw [hrd]; exact subWordAux_ne_nil hdne n _ y ys
          rw [List.getLast?_append_of_ne_nil _ hXne] at hgl
          have hlen : (rest.drop t.length).length ≤ n := by
            simp only [List.length_drop]; simp at hs; omega
          rcases ih _ _ x hlen hgl with h1 | h1
          · left
            rw [← hsplit, List.getLast?_append_of_ne_nil _ (by rw [hrd]; simp)]
            exact h1
          · exact Or.inr h1
      · rw [subWordAux, if_neg hm] at hgl
        cases hrest : rest with
        | nil =>
          subst hrest
          simp only [subWordAux] at hgl
          left
          simpa using hgl
        | cons y ys =>
          have hYne : subWordAux h t d n (some c) rest ≠ [] := by
            rw [hrest]; exact subWordAux_ne_nil hdne n _ y ys
          have : (c :: subWordAux h t d n (some c) rest).getLast?
              = (subWordAux h t d n (some c) rest).getLast? := by
            rw [show c :: subWordAux h t d n (some c) rest
                = [c] ++ subWordAux h t d n (some c) rest from rfl]
            exact List.getLast?_append_of_ne_nil _ hYne
          rw [this] at hgl
          rw [← hrest]
          rcases ih _ _ x (by simp at hs; omega) hgl with h1 | h1
          · left
            rw [show c :: rest = [c] ++ rest from rfl,
              List.getLast?_append_of_ne_nil _ (by rw [hrest]; simp)]
            exact h1
          · exact Or.inr h1

theorem subWord_headOkB {w d s : Str} (hdne : d ≠ [])
    (hd : ∀ c ∈ d, isSpaceC c = false) (hs : headOkB s = true) :
    headOkB (subWord w d s) = true := by
  cases w with
  | nil => exact hs
  | cons h t =>
    cases s with
    | nil => rfl
    | cons c rest =>
      obtain ⟨x, w', heq, hx⟩ := subWordAux_head hdne (c :: rest).length none c rest
      rw [subWord, heq]
      simp only [headOkB, Bool.not_eq_true']
      rcases hx with rfl | hxd
      · simpa [headOkB, Bool.not_eq_true'] using hs
      · exact hd x hxd

theorem subWord_lastOkB {w d s : Str} (hdne : d ≠ [])
    (hd : ∀ c ∈ d, isSpaceC c = false) (hs : lastOkB s = true) :
    lastOkB (subWord w d s) = true := by
  cases w with
  | nil => exact hs
  | cons h t =>
    unfold lastOkB
    cases hgl : (subWord (h :: t) d s).getLast? with
    | none => rfl
    | some x =>
      rw [subWord] at hgl
      rcases subWordAux_last hdne s.length none s x le_rfl hgl with h1 | h1
      · unfold lastOkB at hs
        rw [h1] at hs
        exact hs
      · simp [hd x h1]

theorem applyTable_headOkB :
    ∀ (table : List (Str × Str)),
      (∀ wd ∈ table, wd.2 ≠ [] ∧ ∀ c ∈ wd.2, isSpaceC c = false) →
      ∀ s : Str, headOkB s = true → headOkB (applyTable table s) = true := by
  intro table
  induction table with
  | nil => intro _ s hs; exact hs
  | cons wd rest ih =>
    obtain ⟨w, d⟩ := wd
    intro htab s hs
    rw [applyTable_cons]
    exact ih (fun x hx => htab x (by simp [hx])) _
      (subWord_headOkB (htab (w, d) (by simp)).1 (htab (w, d) (by simp)).2 hs)

theorem applyTable_lastOkB :
    ∀ (table : List (Str × Str)),
      (∀ wd ∈ table, wd.2 ≠ [] ∧ ∀ c ∈ wd.2, isSpaceC c = false) →
      ∀ s : Str, lastOkB s = true → lastOkB (applyTable table s) = true := by
  intro table
  induction table with
  | nil => intro _ s hs; exact hs
  | cons wd rest ih =>
    obtain ⟨w, d⟩ := wd
    intro htab s hs
    rw [applyTable_cons]
    exact ih (fun x hx => htab x (by simp [hx])) _
      (subWord_lastOkB (htab (w, d) (by simp)).1 (htab (w, d) (by simp)).2 hs)

/-! ## Idempotence of `normalize_text` (C8) -/

theorem normalize_text_def (x : Str) :
    normalize_text x =
      if x = [] then []
      else applyTable FRENCH_NUMBERS (trimStr (lowerStr (foldStr x))) := rfl

theorem table_entries_ok :
    ∀ wd ∈ FRENCH_NUMBERS, wd.2 ≠ [] ∧ ∀ c ∈ wd.2, isSpaceC c = false := by decide

theorem table_digits : ∀ wd ∈ FRENCH_NUMBERS, ∀ c ∈ wd.2, isDigitC c = true := by decide

theorem goodTable_french : goodTable [] FRENCH_NUMBERS = true := by decide

/-- Every character of a normalization result is fixed by accent
folding and by lowering. -/
theorem normalize_chars {s : Str} (hs : s ≠ []) :
    ∀ c ∈ normalize_text s, foldChar c = [c] ∧ lowerChar c = c := by
  intro c hc
  rw [normalize_text_def, if_neg hs] at hc
  rcases applyTable_chars FRENCH_NUMBERS _ c hc with hT | ⟨wd, hwd, hcd⟩
  · have hT2 : c ∈ lowerStr (foldStr s) := trimStr_subset hT
    obtain ⟨c'', hc'', rfl⟩ := List.mem_map.mp hT2
    obtain ⟨a, ha⟩ := mem_foldStr hc''
    exact stable_lower_fold ha
  · exact digit_stable (table_digits wd hwd c hcd)

/-- C8: `normalize_text` is idempotent. -/
theorem claim_C8 (s : Str) : normalize_text (normalize_text s) = normalize_text s := by
  by_cases hs : s = []
  · rw [hs]; rfl
  · by_cases hN : normalize_text s = []
    · rw [hN]; rfl
    · have hchars := normalize_chars hs
      have hNdef : normalize_text s
          = applyTable FRENCH_NUMBERS (trimStr (lowerStr (foldStr s))) := by
        rw [normalize_text_def, if_neg hs]
      have h1 : foldStr (normalize_text s) = normalize_text s :=
        foldStr_fixed (fun c hc => (hchars c hc).1)
      have h2 : lowerStr (normalize_text s) = normalize_text s :=
        lowerStr_fixed (fun c hc => (hchars c hc).2)
      have hok1 : headOkB (normalize_text s) = true := by
        rw [hNdef]
        exact applyTable_headOkB FRENCH_NUMBERS table_entries_ok _ (trimStr_headOkB _)
      have hok2 : lastOkB (normalize_text s) = true := by
        rw [hNdef]
        exact applyTable_lastOkB FRENCH_NUMBERS table_entries_ok _ (trimStr_lastOkB _)
      have h3 : trimStr (normalize_text s) = normalize_text s := trimStr_eq_self hok1 hok2
      have h4 : applyTable FRENCH_NUMBERS (normalize_text s) = normalize_text s := by
        apply applyTable_id
        intro wd hwd
        apply subWord_id
        rw [hNdef]
        exact (chainLemma FRENCH_NUMBERS [] _ goodTable_french (by simp)).2 wd hwd
      rw [normalize_text_def (normalize_text s), if_neg hN, h1, h2, h3, h4]

/-! ## Tier structure of `fuzzy_match` -/

theorem fuzzy_match_eq1 {q t : Str} (h : normalize_text q = normalize_text t) :
    fuzzy_match q t = 1 := by
  simp only [fuzzy_match]
  rw [if_pos h]

theorem fuzzy_match_eq2 {q t : Str} (h1 : normalize_text q ≠ normalize_text t)
    (h2 : isSubstr (normalize_text q) (normalize_text t) = true) :
    fuzzy_match q t = 9/10 := by
  simp only [fuzzy_match]
  rw [if_neg h1, if_pos h2]

theorem fuzzy_match_eq3 {q t : Str} (h1 : normalize_text q ≠ normalize_text t)
    (h2 : isSubstr (normalize_text q) (normalize_text t) = false)
    (h3 : isSubstr (normalize_text t) (normalize_text q) = true) :
    fuzzy_match q t = 8/10 := by
  simp only [fuzzy_match]
  rw [if_neg h1, if_neg (by simp [h2]), if_pos h3]

theorem fuzzy_match_eq0 {q t : Str} (h1 : normalize_text q ≠ normalize_text t)
    (h2 : isSubstr (normalize_text q) (normalize_text t) = false)
    (h3 : isSubstr (normalize_text t) (normalize_text q) = false)
    (h4 : extract_keywords q = [] ∨ extract_keywords t = []) :
    fuzzy_match q t = 0 := by
  simp only [fuzzy_match]
  rw [if_neg h1, if_neg (by simp [h2]), if_neg (by simp [h3]), if_pos h4]

theorem fuzzy_match_eq4 {q t : Str} (h1 : normalize_text q ≠ normalize_text t)
    (h2 : isSubstr (normalize_text q) (normalize_text t) = false)
    (h3 : isSubstr (normalize_text t) (normalize_text q) = false)
    (h4 : ¬(extract_keywords q = [] ∨ extract_keywords t = [])) :
    fuzzy_match q t =
      ((extract_keywords q).countP
        (fun qw => (extract_keywords t).any (fun tw => isSubstr qw tw || isSubstr tw qw)) : ℚ)
        / (extract_keywords q).length * (7/10) := by
  simp only [fuzzy_match]
  rw [if_neg h1, if_neg (by simp [h2]), if_neg (by simp [h3]), if_neg h4]

/-- Bounds of the keyword-tier value. -/
theorem kwfrac_bounds (m n : ℕ) (hn : 0 < n) (h : m ≤ n) :
    0 ≤ (m : ℚ)/n * (7/10) ∧ (m : ℚ)/n * (7/10) ≤ 7/10 := by
  have hnq : (0:ℚ) < n := by exact_mod_cast hn
  have h1 : (m:ℚ)/n ≤ 1 := div_le_one_of_le₀ (by exact_mod_cast h) (le_of_lt hnq)
  refine ⟨by positivity, ?_⟩
  calc (m:ℚ)/n * (7/10) ≤ 1 * (7/10) :=
        mul_le_mul_of_nonneg_right h1 (by norm_num)
    _ = 7/10 := one_mul _

/-- C4: the tiered scoring policy of `fuzzy_match`: the score is in
[0, 1]; equal normalizations give 1.0; else query-in-target gives 0.9;
else target-in-query gives 0.8; else the keyword tier gives 0.0 when
either keyword list is empty and otherwise 0.7 times the fraction of
query keywords in a substring relation with some target keyword, which
is at most 0.7 and strictly below the substring-tier scores. -/
theorem claim_C4 (q t : Str) :
    (0 ≤ fuzzy_match q t ∧ fuzzy_match q t ≤ 1)
    ∧ (normalize_text q = normalize_text t → fuzzy_match q t = 1)
    ∧ (normalize_text q ≠ normalize_text t →
        isSubstr (normalize_text q) (normalize_text t) = true → fuzzy_match q t = 9/10)
    ∧ (normalize_text q ≠ normalize_text t →
        isSubstr (normalize_text q) (normalize_text t) = false →
        isSubstr (normalize_text t) (normalize_text q) = true → fuzzy_match q t = 8/10)
    ∧ (normalize_text q ≠ normalize_text t →
        isSubstr (normalize_text q) (normalize_text t) = false →
        isSubstr (normalize_text t) (normalize_text q) = false →
        ((extract_keywords q = [] ∨ extract_keywords t = [] → fuzzy_match q t = 0)
         ∧ (extract_keywords q ≠ [] → extract_keywords t ≠ [] →
             fuzzy_match q t =
               ((extract_keywords q).countP
                 (fun qw => (extract_keywords t).any
                   (fun tw => isSubstr qw tw || isSubstr tw qw)) : ℚ)
                 / (extract_keywords q).length * (7/10))
         ∧ fuzzy_match q t ≤ 7/10 ∧ fuzzy_match q t < 8/10)) := by
  have hb : ∀ (h1 : normalize_text q ≠ normalize_text t)
      (h2 : isSubstr (normalize_text q) (normalize_text t) = false)
      (h3 : isSubstr (normalize_text t) (normalize_text q) = false),
      0 ≤ fuzzy_match q t ∧ fuzzy_match q t ≤ 7/10 := by
    intro h1 h2 h3
    by_cases h4 : extract_keywords q = [] ∨ extract_keywords t = []
    · rw [fuzzy_match_eq0 h1 h2 h3 h4]; norm_num
    · rw [fuzzy_match_eq4 h1 h2 h3 h4]
      push_neg at h4
      exact kwfrac_bounds _ _ (List.length_pos.mpr h4.1) (List.countP_le_length _)
  refine ⟨?_, fun h => fuzzy_match_eq1 h, fun h1 h2 => fuzzy_match_eq2 h1 h2,
      fun h1 h2 h3 => fuzzy_match_eq3 h1 h2 h3, fun h1 h2 h3 => ?_⟩
  · by_cases h1 : normalize_text q = normalize_text t
    · rw [fuzzy_match_eq1 h1]; norm_num
    · cases h2 : isSubstr (normalize_text q) (normalize_text t) with
      | true => rw [fuzzy_match_eq2 h1 h2]; norm_num
      | false =>
        cases h3 : isSubstr (normalize_text t) (normalize_text q) with
        | true => rw [fuzzy_match_eq3 h1 h2 h3]; norm_num
        | false =>
          have := hb h1 h2 h3
          constructor
          · exact this.1
          · linarith [this.2]
  · have hbb := hb h1 h2 h3
    refine ⟨fun h4 => fuzzy_match_eq0 h1 h2 h3 h4,
        fun hq ht => fuzzy_match_eq4 h1 h2 h3 (by simp [hq, ht]), hbb.2, by linarith [hbb.2]⟩

/-- Witness for C4 at the substring tier. -/
theorem claim_C4_witness : fuzzy_match (cs "a") (cs "ab") = 9/10 :=
  (claim_C4 (cs "a") (cs "ab")).2.2.1 (by decide) (by decide)

/-- C9: `fuzzy_match x x = 1` for any `x` non-empty after
normalization (the first tier fires on the reflexive comparison). -/
theorem claim_C9 (x : Str) (_h : normalize_text x ≠ []) : fuzzy_match x x = 1 :=
  fuzzy_match_eq1 rfl

/-- Witness for C9. -/
theorem claim_C9_witness :
    normalize_text (cs "tram c") ≠ [] ∧ fuzzy_match (cs "tram c") (cs "tram c") = 1 :=
  ⟨by decide, claim_C9 (cs "tram c") (by decide)⟩

/-- C1 counterexample: with a stop discovered for the line but its
departure probe failing, `get_stops_for_line` does NOT exclude the stop
and continue — the probe's `DataSourceError` propagates to the caller
(the source has no try/except around the probe). -/
theorem claim_C1_cex :
    TBMClient.get_stops_for_line dsProbe ClientState.init (cs "L1") 1 BBOX
      = .error (cs "PE") := by
  with_unfolding_all rfl

/-- When every probe fails and some discovered stop lists the line, the
probe loop fails. -/
theorem probeStops_err (ds : DataSource) (line_ref : Str) (direction_ref : Int) (e : Str)
    (hprobe : ∀ spr lr dr pv mv, ds.stopMonitoring spr lr dr pv mv = .error e) :
    ∀ items : List StopItem,
      (∃ it ∈ items, it.Lines.any (fun l => get_value l == line_ref) = true) →
      probeStops ds line_ref direction_ref items = .error e := by
  intro items
  induction items with
  | nil => rintro ⟨it, hmem, _⟩; simp at hmem
  | cons it rest ih =>
    rintro ⟨it', hmem, hmatch⟩
    by_cases hit : it.Lines.any (fun l => get_value l == line_ref) = true
    · simp [probeStops, hit, TBMClient.get_departures, hprobe, Bind.bind, Except.bind]
    · have hrest : ∃ x ∈ rest, x.Lines.any (fun l => get_value l == line_ref) = true := by
        rcases List.mem_cons.mp hmem with h | h
        · exact absurd (h ▸ hmatch) hit
        · exact ⟨it', h, hmatch⟩
      simp [probeStops, hit]
      exact ih hrest

/-- C1 amended: a `DataSourceError` raised during a per-stop
live-departure probe is fatal: it propagates unchanged out of
`get_stops_for_line` (aborting the whole operation, so nothing is
cached), exactly like a failure of the top-level stop-discovery fetch;
the stop is not merely excluded. -/
theorem claim_C1_amended (ds : DataSource) (st : ClientState) (line_ref : Str)
    (direction_ref : Int) (bbox : ℚ × ℚ × ℚ × ℚ) (items : List StopItem) (e : Str)
    (hmiss : dlookup (line_ref ++ cs "-" ++ intStr direction_ref) st.stops_cache = none)
    (hdisc : ds.stopPointsDiscovery bbox = .ok items)
    (hprobe : ∀ spr lr dr pv mv, ds.stopMonitoring spr lr dr pv mv = .error e)
    (hmatch : ∃ it ∈ items, it.Lines.any (fun l => get_value l == line_ref) = true) :
    TBMClient.get_stops_for_line ds st line_ref direction_ref bbox = .error e := by
  rw [List.append_assoc] at hmiss
  simp [TBMClient.get_stops_for_line, hmiss, hdisc, Bind.bind, Except.bind,
        probeStops_err ds line_ref direction_ref e hprobe items hmatch]

/-- Witness for C1's amended statement. -/
theorem claim_C1_witness :
    TBMClient.get_stops_for_line dsProbe ClientState.init (cs "L1") 2 BBOX
      = .error (cs "PE") :=
  claim_C1_amended dsProbe ClientState.init (cs "L1") 2 BBOX [sp1] (cs "PE")
    rfl rfl (fun _ _ _ _ _ => rfl) ⟨sp1, by simp, by decide⟩

/-- C3 counterexample: with an empty catalog, the first completed
`get_lines` call caches `{}`, which is falsy, so the second identical
call issues a catalog fetch again (its fetch count is 1, not 0):
population is not "at most once per key" for `get_lines`. -/
theorem claim_C3_cex :
    TBMClient.get_lines dsEmptyCat ClientState.init = .ok ([], stEmptyCat, 1)
    ∧ TBMClient.get_lines dsEmptyCat stEmptyCat = .ok ([], stEmptyCat, 1) := by
  exact ⟨by with_unfolding_all rfl, by with_unfolding_all rfl⟩

/-- A successful `fetchLines` commits exactly its result to the cache. -/
theorem fetchLines_ok_cache {ds : DataSource} {st : ClientState}
    {m : List (Str × LineEntry)} {st' : ClientState} {n : Nat}
    (h : fetchLines ds st = .ok (m, st', n)) : st'.lines_cache = some m := by
  unfold fetchLines at h
  cases hd : ds.linesDiscovery with
  | error e => rw [hd] at h; simp [Bind.bind, Except.bind] at h
  | ok items =>
    rw [hd] at h
    simp only [Bind.bind, Except.bind, Except.ok.injEq, Prod.mk.injEq] at h
    obtain ⟨hm, hst, -⟩ := h
    rw [← hst, ← hm]

/-- A successful `get_lines` leaves the cache holding exactly its
result. -/
theorem get_lines_ok_cache {ds : DataSource} {st : ClientState}
    {m : List (Str × LineEntry)} {st' : ClientState} {n : Nat}
    (h : TBMClient.get_lines ds st = .ok (m, st', n)) : st'.lines_cache = some m := by
  unfold TBMClient.get_lines at h
  split at h
  · split at h
    · exact fetchLines_ok_cache h
    · simp only [Except.ok.injEq, Prod.mk.injEq] at h
      obtain ⟨hm, hst, -⟩ := h
      rw [← hst]
      simp_all
  · exact fetchLines_ok_cache h

/-- Looking up the freshly inserted key. -/
theorem dlookup_dinsert {β : Type} (k : Str) (v : β) (l : List (Str × β)) :
    dlookup k (dinsert k v l) = some v := by
  induction l with
  | nil => simp [dinsert, dlookup]
  | cons kv rest ih =>
    by_cases hk : kv.1 = k
    · simp [dinsert, dlookup, hk]
    · simp [dinsert, dlookup, hk, ih]

/-- A successful `get_stops_for_line` leaves its key in the stops cache
bound to exactly its result. -/
theorem get_stops_ok_cache {ds : DataSource} {st : ClientState} {lr : Str} {dr : Int}
    {bbox : ℚ × ℚ × ℚ × ℚ} {r : List StopRec} {st' : ClientState} {f p : Nat}
    (h : TBMClient.get_stops_for_line ds st lr dr bbox = .ok (r, st', f, p)) :
    dlookup (lr ++ cs "-" ++ intStr dr) st'.stops_cache = some r := by
  simp only [TBMClient.get_stops_for_line] at h
  split at h
  next cached hc =>
    simp only [Except.ok.injEq, Prod.mk.injEq] at h
    obtain ⟨hr, hst, -⟩ := h
    rw [← hst, hc, hr]
  next hc =>
    cases hd : ds.stopPointsDiscovery bbox with
    | error e => rw [hd] at h; simp [Bind.bind, Except.bind] at h
    | ok items =>
      rw [hd] at h
      simp only [Bind.bind, Except.bind] at h
      cases hp : probeStops ds lr dr items with
      | error e => rw [hp] at h; simp at h
      | ok rp =>
        rw [hp] at h
        simp only [Except.ok.injEq, Prod.mk.injEq] at h
        obtain ⟨hr, hst, -⟩ := h
        rw [← hst, ← hr]
        exact dlookup_dinsert _ _ _

/-- C3 amended: population is at-most-once per key only with the
correction that an empty line catalog is refetched: after a completed
`get_lines` whose catalog is non-empty, a later `get_lines` issues no
catalog fetch and returns the cached catalog unchanged; after any
completed `get_stops_for_line`, a later call with the same
`(line_ref, direction_ref)` key issues no stop-discovery fetch and no
departure probe and returns the cached list unchanged. -/
theorem claim_C3_amended :
    (∀ (ds : DataSource) (st : ClientState) m st' n,
      TBMClient.get_lines ds st = .ok (m, st', n) → m ≠ [] →
      TBMClient.get_lines ds st' = .ok (m, st', 0))
    ∧ (∀ (ds : DataSource) (st : ClientState) lr dr bbox r st' f p,
        TBMClient.get_stops_for_line ds st lr dr bbox = .ok (r, st', f, p) →
        TBMClient.get_stops_for_line ds st' lr dr bbox = .ok (r, st', 0, 0)) := by
  constructor
  · intro ds st m st' n h hne
    have hc := get_lines_ok_cache h
    have he : m.isEmpty = false := by simp [List.isEmpty_iff, hne]
    simp [TBMClient.get_lines, hc, he]
  · intro ds st lr dr bbox r st' f p h
    have hc := get_stops_ok_cache h
    rw [List.append_assoc] at hc
    simp [TBMClient.get_stops_for_line, hc]

/-- Witness for C3's amended statement. -/
theorem claim_C3_witness :
    TBMClient.get_lines dsA st1 = .ok (m1, st1, 0)
    ∧ TBMClient.get_stops_for_line dsA st2 (cs "L1") 1 BBOX = .ok (stops1, st2, 0, 0) :=
  ⟨claim_C3_amended.1 dsA ClientState.init m1 st1 1
      (by with_unfolding_all rfl) (by decide),
   claim_C3_amended.2 dsA ClientState.init (cs "L1") 1 BBOX stops1 st2 1 2
      (by with_unfolding_all rfl)⟩

/-- C7: when the line-catalog cache is unpopulated (or cached empty, in
which case the source refetches) and the catalog fetch fails, the
`DataSourceError` propagates unchanged out of both `search_stop` and
`find_line_by_query`; neither converts it into an empty result. -/
theorem claim_C7 (ds : DataSource) (st : ClientState) (e : Str)
    (hcache : st.lines_cache = none ∨ st.lines_cache = some [])
    (herr : ds.linesDiscovery = .error e)
    (sq lq dq : Option Str) (q : Str) :
    TBMClient.search_stop ds st sq lq dq = .error e ∧
    TBMClient.find_line_by_query ds st q = .error e := by
  have hgl : TBMClient.get_lines ds st = .error e := by
    rcases hcache with h | h <;>
      simp [TBMClient.get_lines, h, fetchLines, herr, Bind.bind, Except.bind]
  constructor <;>
    simp [TBMClient.search_stop, TBMClient.find_line_by_query, hgl, Bind.bind, Except.bind]

/-- Witness for C7. -/
theorem claim_C7_witness :
    TBMClient.search_stop dsNull ClientState.init none none none = .error (cs "E")
    ∧ TBMClient.find_line_by_query dsNull ClientState.init (cs "x") = .error (cs "E") :=
  claim_C7 dsNull ClientState.init (cs "E") (Or.inl rfl) rfl none none none (cs "x")

/-- C10 counterexample: on the non-empty catalog `[eA, eB]` (first entry
`eA`), `find_line_by_query ""` returns `eB`, not the first entry: `eB`'s
name and code normalize to empty, so it scores 1.0 and strictly beats
`eA`'s 0.9. -/
theorem claim_C10_cex :
    stAB.lines_cache = some [(cs "A-1", eA), (cs "B-2", eB)]
    ∧ TBMClient.find_line_by_query dsNull stAB (cs "") = .ok (some eB, stAB)
    ∧ eB ≠ eA := by
  refine ⟨rfl, by with_unfolding_all rfl, by decide⟩

/-- `""` is a left factor of every string. -/
theorem isSubstr_nil_left (s : Str) : isSubstr [] s = true := by
  cases s <;> simp [isSubstr, pfx]

/-- The best-tracking fold of `find_line_by_query` keeps its
accumulator when no later score strictly exceeds it. -/
theorem findBest_keep (q : Str) :
    ∀ (l : List (Str × LineEntry)) (acc : Option LineEntry × ℚ),
    (∀ kv ∈ l, max (fuzzy_match q kv.2.line_name) (fuzzy_match q kv.2.line_code) ≤ acc.2) →
    l.foldl (fun acc kv =>
      if acc.2 < max (fuzzy_match q kv.2.line_name) (fuzzy_match q kv.2.line_code) then
        (some kv.2, max (fuzzy_match q kv.2.line_name) (fuzzy_match q kv.2.line_code))
      else acc) acc = acc := by
  intro l
  induction l with
  | nil => intro acc _; rfl
  | cons kv rest ih =>
    intro acc h
    have hkv := h kv (by simp)
    simp only [List.foldl_cons, if_neg (not_lt.mpr hkv)]
    exact ih acc (fun x hx => h x (by simp [hx]))

/-- C10 amended: a query normalizing to empty scores 0.9 against any
target normalizing non-empty and 1.0 when both normalize empty; and
`find_line_by_query ""` on a non-empty cached catalog returns the first
catalog entry provided every entry's name and code normalize to
non-empty strings (without that proviso a later entry scoring 1.0 is
returned instead, as the counterexample shows). -/
theorem claim_C10_amended :
    (∀ q t : Str, normalize_text q = [] → normalize_text t ≠ [] → fuzzy_match q t = 9/10)
    ∧ (∀ q t : Str, normalize_text q = [] → normalize_text t = [] → fuzzy_match q t = 1)
    ∧ (∀ (ds : DataSource) (st : ClientState) (kv0 : Str × LineEntry)
         (rest : List (Str × LineEntry)),
        st.lines_cache = some (kv0 :: rest) →
        (∀ kv ∈ kv0 :: rest,
          normalize_text kv.2.line_name ≠ [] ∧ normalize_text kv.2.line_code ≠ []) →
        TBMClient.find_line_by_query ds st (cs "") = .ok (some kv0.2, st)) := by
  have hq0 : normalize_text (cs "") = [] := by decide
  have htier : ∀ q t : Str, normalize_text q = [] → normalize_text t ≠ [] →
      fuzzy_match q t = 9/10 := by
    intro q t hq ht
    exact fuzzy_match_eq2 (by rw [hq]; exact fun h => ht h.symm)
      (by rw [hq]; exact isSubstr_nil_left _)
  refine ⟨htier, ?_, ?_⟩
  · intro q t hq ht
    exact fuzzy_match_eq1 (hq.trans ht.symm)
  · intro ds st kv0 rest hm hne
    have hscore : ∀ kv ∈ kv0 :: rest,
        max (fuzzy_match (cs "") kv.2.line_name) (fuzzy_match (cs "") kv.2.line_code)
          = 9/10 := by
      intro kv hkv
      rw [htier _ _ hq0 (hne kv hkv).1, htier _ _ hq0 (hne kv hkv).2]
      simp
    have hgl : TBMClient.get_lines ds st = .ok (kv0 :: rest, st, 0) := by
      simp [TBMClient.get_lines, hm]
    simp only [TBMClient.find_line_by_query, hgl, Bind.bind, Except.bind]
    have hstep : ((if ((none : Option LineEntry), (0:ℚ)).2 <
        max (fuzzy_match (cs "") kv0.2.line_name) (fuzzy_match (cs "") kv0.2.line_code) then
        ((some kv0.2 : Option LineEntry),
          max (fuzzy_match (cs "") kv0.2.line_name) (fuzzy_match (cs "") kv0.2.line_code))
      else (none, 0)) : Option LineEntry × ℚ) = (some kv0.2, 9/10) := by
      rw [hscore kv0 (by simp)]
      norm_num
    simp only [List.foldl_cons]
    rw [hstep, findBest_keep _ rest (some kv0.2, 9/10)
      (fun kv hkv => le_of_eq (hscore kv (by simp [hkv])))]
    norm_num

/-- Witness for C10's amended statement. -/
theorem claim_C10_witness :
    TBMClient.find_line_by_query dsNull
      { lines_cache := some [(cs "A-1", eA)], stops_cache := [] } (cs "") =
      .ok (some eA, { lines_cache := some [(cs "A-1", eA)], stops_cache := [] }) :=
  claim_C10_amended.2.2 dsNull _ (cs "A-1", eA) [] rfl (by decide)

/-! ## `search_stop` without a stop query (C6) -/

/-- C6: with a falsy stop query, `search_stop` returns the single
line-only result built from the first surviving line of the filtered
catalog (in catalog order), with null stop fields, or the empty list
when no line survives; in particular the result has at most one
element, and with no queries at all the filter keeps the whole catalog
(so the result is built from the first catalog entry). -/
theorem claim_C6 (ds : DataSource) (st : ClientState) (sq lq dq : Option Str)
    (lines : List (Str × LineEntry)) (st0 : ClientState) (n : Nat)
    (res : List SearchResult) (st' : ClientState)
    (hq : truthyO sq = false)
    (hl : TBMClient.get_lines ds st = .ok (lines, st0, n))
    (hok : TBMClient.search_stop ds st sq lq dq = .ok (res, st')) :
    res.length ≤ 1
    ∧ (filterLines lq dq (lines.map Prod.snd) = [] → res = [])
    ∧ (∀ line rest, filterLines lq dq (lines.map Prod.snd) = line :: rest →
        res = [{ line_ref := line.line_ref, line_name := line.line_name,
                 line_code := line.line_code, direction_ref := line.direction_ref,
                 dest_name := line.dest_name, stop_point_ref := none, stop_name := none }])
    ∧ filterLines none none (lines.map Prod.snd) = lines.map Prod.snd := by
  have hfl : filterLines none none (lines.map Prod.snd) = lines.map Prod.snd := by
    simp [filterLines]
  simp only [TBMClient.search_stop, hl, Bind.bind, Except.bind, hq, Bool.not_false,
    if_true] at hok
  cases hm : filterLines lq dq (lines.map Prod.snd) with
  | nil =>
    rw [hm] at hok
    simp only [Except.ok.injEq, Prod.mk.injEq] at hok
    obtain ⟨hres, -⟩ := hok
    exact ⟨by simp [← hres], fun _ => hres.symm, fun line rest habs => absurd habs (by simp),
      hfl⟩
  | cons line rest =>
    rw [hm] at hok
    simp only [Except.ok.injEq, Prod.mk.injEq] at hok
    obtain ⟨hres, -⟩ := hok
    refine ⟨by simp [← hres], fun habs => absurd habs (by simp),
      fun line' rest' heq => ?_, hfl⟩
    injection heq with h1 h2
    rw [← hres, h1]

/-- Witness for C6. -/
theorem claim_C6_witness :
    ([r0] : List SearchResult).length ≤ 1
    ∧ (filterLines none none (m1.map Prod.snd) = [] → [r0] = [])
    ∧ (∀ line rest, filterLines none none (m1.map Prod.snd) = line :: rest →
        [r0] = [{ line_ref := line.line_ref, line_name := line.line_name,
                  line_code := line.line_code, direction_ref := line.direction_ref,
                  dest_name := line.dest_name, stop_point_ref := none, stop_name := none }])
    ∧ filterLines none none (m1.map Prod.snd) = m1.map Prod.snd :=
  claim_C6 dsA ClientState.init none none none m1 st1 1 [r0] st1 rfl
    (by with_unfolding_all rfl) (by with_unfolding_all rfl)

/-- Filtering by a property that inserted-before elements cannot have
commutes with a stable ordered insert. -/
theorem filter_orderedInsert {α : Type} (r : α → α → Prop) [DecidableRel r]
    (p : α → Bool) (hcond : ∀ a b, p a = true → ¬ r a b → p b = false) (x : α) :
    ∀ l : List α, (l.orderedInsert r x).filter p =
      if p x then x :: l.filter p else l.filter p := by
  intro l
  induction l with
  | nil => cases hpx : p x <;> simp [List.orderedInsert, List.filter_cons, hpx]
  | cons y ys ih =>
    by_cases hr : r x y
    · cases hpx : p x <;>
        simp [List.orderedInsert, hr, List.filter_cons, hpx]
    · cases hpx : p x
      · simp [List.orderedInsert, hr, List.filter_cons, ih, hpx]
      · have hpy : p y = false := hcond x y hpx hr
        simp [List.orderedInsert, hr, List.filter_cons, hpy, ih, hpx]

/-- A stable insertion sort leaves the subsequence of elements sharing
any one key value untouched: ties stay in collection order. -/
theorem filter_insertionSort {α : Type} (r : α → α → Prop) [DecidableRel r]
    (p : α → Bool) (hcond : ∀ a b, p a = true → ¬ r a b → p b = false) :
    ∀ l : List α, (l.insertionSort r).filter p = l.filter p := by
  intro l
  induction l with
  | nil => rfl
  | cons x xs ih =>
    rw [List.insertionSort, filter_orderedInsert r p hcond x]
    cases hpx : p x <;> simp [List.filter_cons, hpx, ih]

/-- Every pair collected by `collectScored` carries as its first
component exactly the fuzzy score of its record's stop name against the
stop query, and that score passed the 0.3 threshold. -/
theorem collectScored_scores (ds : DataSource) (sq : Str) :
    ∀ (ls : List LineEntry) (st : ClientState) (scored : List (ℚ × SearchResult))
      (st' : ClientState),
      collectScored ds st ls sq = .ok (scored, st') →
      ∀ x ∈ scored, x.1 = fuzzy_match sq (x.2.stop_name.getD []) ∧ 3/10 ≤ x.1 := by
  intro ls
  induction ls with
  | nil =>
    intro st scored st' h x hx
    simp only [collectScored, Except.ok.injEq, Prod.mk.injEq] at h
    obtain ⟨hs, -⟩ := h
    rw [← hs] at hx
    simp at hx
  | cons li rest ih =>
    intro st scored st' h x hx
    simp only [collectScored, Bind.bind, Except.bind] at h
    cases hg : TBMClient.get_stops_for_line ds st li.line_ref li.direction_ref BBOX with
    | error e => rw [hg] at h; simp at h
    | ok t =>
      obtain ⟨stops, st1, c1, c2⟩ := t
      rw [hg] at h
      simp only [] at h
      cases hc : collectScored ds st1 rest sq with
      | error e => rw [hc] at h; simp at h
      | ok t2 =>
        obtain ⟨more, st2⟩ := t2
        rw [hc] at h
        simp only [Except.ok.injEq, Prod.mk.injEq] at h
        obtain ⟨hs, -⟩ := h
        rw [← hs] at hx
        rcases List.mem_append.mp hx with hx1 | hx2
        · obtain ⟨sp, hsp, hf⟩ := List.mem_filterMap.mp hx1
          by_cases hth : 3/10 ≤ fuzzy_match sq sp.stop_name
          · rw [if_pos hth] at hf
            obtain rfl := Option.some.inj hf
            exact ⟨rfl, hth⟩
          · rw [if_neg hth] at hf
            exact absurd hf (by simp)
        · exact ih st1 more st2 hc x hx2

/-- C5: `search_stop` returns at most 10 results; when the stop query
is truthy the results are the score-dropped 10-prefix of the stable
descending sort of the collected (score, result) pairs: the sorted list
is non-increasing in score, its subsequence at any fixed score equals
the collection-order subsequence (stability), and the returned results
are pairwise non-increasing in the fuzzy score of their stop name
against the stop query. -/
theorem claim_C5 (ds : DataSource) (st : ClientState) (sq lq dq : Option Str)
    (res : List SearchResult) (st' : ClientState)
    (hok : TBMClient.search_stop ds st sq lq dq = .ok (res, st')) :
    res.length ≤ 10
    ∧ (truthyO sq = true →
        ∀ (lines : List (Str × LineEntry)) (st0 : ClientState) (n : Nat),
        TBMClient.get_lines ds st = .ok (lines, st0, n) →
        ∀ (scored : List (ℚ × SearchResult)) (st2 : ClientState),
        collectScored ds st0 ((filterLines lq dq (lines.map Prod.snd)).take 5)
            (sq.getD []) = .ok (scored, st2) →
        res = ((scored.insertionSort scoreRel).take 10).map Prod.snd
        ∧ List.Sorted scoreRel (scored.insertionSort scoreRel)
        ∧ (∀ v : ℚ, (scored.insertionSort scoreRel).filter (fun x => decide (x.1 = v))
             = scored.filter (fun x => decide (x.1 = v)))
        ∧ List.Pairwise (fun a b => fuzzy_match (sq.getD []) (b.stop_name.getD [])
             ≤ fuzzy_match (sq.getD []) (a.stop_name.getD [])) res) := by
  have hmain : ∀ (hsq : truthyO sq = true)
      (lines : List (Str × LineEntry)) (st0 : ClientState) (n : Nat),
      TBMClient.get_lines ds st = .ok (lines, st0, n) →
      ∀ (scored : List (ℚ × SearchResult)) (st2 : ClientState),
      collectScored ds st0 ((filterLines lq dq (lines.map Prod.snd)).take 5)
          (sq.getD []) = .ok (scored, st2) →
      res = ((scored.insertionSort scoreRel).take 10).map Prod.snd := by
    intro hsq lines st0 n hl scored st2 hcs
    simp only [TBMClient.search_stop, hl, Bind.bind, Except.bind, hsq, Bool.not_true,
      Bool.false_eq_true, if_false, hcs, Except.ok.injEq, Prod.mk.injEq] at hok
    exact hok.1.symm
  have hlen : res.length ≤ 10 := by
    rcases hgl : TBMClient.get_lines ds st with e | t
    · rw [TBMClient.search_stop, hgl] at hok
      simp [Bind.bind, Except.bind] at hok
    · obtain ⟨lines, st0, n⟩ := t
      cases hsq : truthyO sq with
      | false =>
        obtain ⟨h1, -, -, -⟩ := claim_C6 ds st sq lq dq lines st0 n res st' hsq hgl hok
        omega
      | true =>
        rcases hcs : collectScored ds st0
            ((filterLines lq dq (lines.map Prod.snd)).take 5) (sq.getD []) with e | t2
        · rw [TBMClient.search_stop, hgl] at hok
          simp only [Bind.bind, Except.bind, hsq, Bool.not_true, Bool.false_eq_true,
            if_false, hcs] at hok
          cases hok
        · obtain ⟨scored, st2⟩ := t2
          rw [hmain hsq lines st0 n hgl scored st2 hcs]
          calc (((scored.insertionSort scoreRel).take 10).map Prod.snd).length
              = ((scored.insertionSort scoreRel).take 10).length := List.length_map _ _
            _ ≤ 10 := List.length_take_le _ _
  refine ⟨hlen, fun hsq lines st0 n hl scored st2 hcs => ?_⟩
  have hres := hmain hsq lines st0 n hl scored st2 hcs
  have hsorted : List.Sorted scoreRel (scored.insertionSort scoreRel) :=
    List.sorted_insertionSort scoreRel scored
  have hinv := collectScored_scores ds (sq.getD [])
    ((filterLines lq dq (lines.map Prod.snd)).take 5) st0 scored st2 hcs
  refine ⟨hres, hsorted, fun v => ?_, ?_⟩
  · refine filter_insertionSort scoreRel _ ?_ scored
    intro a b hpa hnr
    have hav : a.1 = v := of_decide_eq_true hpa
    have hlt : a.1 < b.1 := lt_of_not_le (fun hba => hnr hba)
    refine decide_eq_false (fun hbv => ?_)
    rw [hav, hbv] at hlt
    exact lt_irrefl v hlt
  · rw [hres]
    have hp10 : List.Pairwise scoreRel ((scored.insertionSort scoreRel).take 10) :=
      hsorted.sublist (List.take_sublist _ _)
    have hmem : ∀ x ∈ (scored.insertionSort scoreRel).take 10,
        x.1 = fuzzy_match (sq.getD []) (x.2.stop_name.getD []) := by
      intro x hx
      have hx2 : x ∈ scored.insertionSort scoreRel :=
        List.mem_of_mem_take hx
      exact (hinv x ((List.mem_insertionSort scoreRel).mp hx2)).1
    have hp10' : List.Pairwise
        (fun a b : ℚ × SearchResult =>
          fuzzy_match (sq.getD []) (b.2.stop_name.getD [])
            ≤ fuzzy_match (sq.getD []) (a.2.stop_name.getD []))
        ((scored.insertionSort scoreRel).take 10) := by
      refine hp10.imp_of_mem ?_
      intro a b ha hb hr
      rw [← hmem a ha, ← hmem b hb]
      exact hr
    exact List.pairwise_map.mpr hp10'

/-- Witness for C5. -/
theorem claim_C5_witness : (resW.length ≤ 10) :=
  (claim_C5 dsA ClientState.init (some (cs "40 journaux")) none none resW stW
    (by with_unfolding_all rfl)).1

/-- C2: evaluation of `normalize_text` at the claim's two inputs. The
simple number word is replaced (`"arret quarante journaux"` becomes
`"arret 40 journaux"`), but the compound form `"dix-sept"` becomes
`"10-7"`, not `"17"`: the table entries for the compounds are dead
because `"dix"` and `"sept"` are substituted first (the table iterates
in insertion order), leaving no whole-word `"dix-sept"` to match. -/
theorem claim_C2 :
    normalize_text (cs "arret quarante journaux") = cs "arret 40 journaux"
    ∧ normalize_text (cs "dix-sept") = cs "10-7"
    ∧ normalize_text (cs "dix-sept") ≠ cs "17" := by decide

